import Mathlib

/-!
Verification of the Connect-4 solver (solver.cpp) against its specification.

The solver source (negamax, solve, the line driver) is embedded from
src/solver.cpp.  The Position, TranspositionTable and MoveSorter components
are declared in headers that are not part of the repository snapshot, so they
are modelled from the specification text (sections 3, 4.1, 4.2, 4.3); each
such definition carries a doc comment starting with "Modelled from the spec".

Machine integers are modelled as Nat / Int; C++ `int` division truncates
toward zero, which is `Int.tdiv` here.
-/

namespace C4

/-- Board width, `Position::WIDTH` in the source. -/
def WIDTH : Nat := 7

/-- Board height, `Position::HEIGHT` in the source. -/
def HEIGHT : Nat := 6

/-- Modelled from the spec (section 3): score domain is `[-21, +22]`;
`MIN_SCORE = -(WIDTH*HEIGHT)/2 = -21`.  `position.hpp` is not in the
repository snapshot, so the spec's explicit range is used. -/
def MIN_SCORE : Int := -21

/-- Modelled from the spec (section 3): `MAX_SCORE` is the upper end `+22`
of the spec's score range `[-21, +22]` (44 values). -/
def MAX_SCORE : Int := 22

/-- A cell of the board: (column, row), column 0 leftmost, row 0 bottom. -/
abbrev Cell : Type := Nat × Nat

/-- A bitmask of cells, realised as 7 columns of 6 Booleans (row 0 first).
Modelled from the spec (section 3): `current_position` and `mask` are
bitmasks of cells. -/
abbrev Board : Type := List (List Bool)

/-- Cell membership in a board mask. Out-of-range cells are vacantly false. -/
def memB (b : Board) (c : Cell) : Bool :=
  (b.getD c.1 []).getD c.2 false

/-- Set a single cell of a board mask to occupied. -/
def setCell (b : Board) (c : Cell) : Board :=
  b.set c.1 ((b.getD c.1 []).set c.2 true)

/-- Cellwise difference of two boards (used for `mask XOR current` when the
second board is a subset of the first). -/
def diffB (m cu : Board) : Board :=
  List.zipWith (fun colm colc => List.zipWith (fun x y => x && !y) colm colc) m cu

/-- The empty board: 7 columns of 6 empty cells. -/
def emptyB : Board := List.replicate 7 (List.replicate 6 false)

/-- Modelled from the spec (section 3): a game state, with the bitmask of the
side to move, the bitmask of all occupied cells, and the move count. -/
structure Position where
  cur : Board
  mask : Board
  moves : Nat
deriving DecidableEq

/-- The empty position. -/
def emptyPos : Position := ⟨emptyB, emptyB, 0⟩

/-- Opponent stones, derived as `current_position XOR mask` (spec section 3). -/
def oppB (P : Position) : Board := diffB P.mask P.cur

/-- All 69 four-in-a-row alignments of the 7x6 board: verticals, horizontals
and the two diagonal directions. -/
def alignments : List (List Cell) :=
  ((List.range 7).flatMap fun c => (List.range 3).map fun r =>
    [(c, r), (c, r+1), (c, r+2), (c, r+3)]) ++
  ((List.range 4).flatMap fun c => (List.range 6).map fun r =>
    [(c, r), (c+1, r), (c+2, r), (c+3, r)]) ++
  ((List.range 4).flatMap fun c => (List.range 3).map fun r =>
    [(c, r), (c+1, r+1), (c+2, r+2), (c+3, r+3)]) ++
  ((List.range 4).flatMap fun c => (List.range 3).map fun r =>
    [(c, r+3), (c+1, r+2), (c+2, r+1), (c+3, r)])

/-- A board contains a completed four-in-a-row. -/
def wonB (b : Board) : Prop := ∃ A ∈ alignments, ∀ c ∈ A, memB b c = true

instance (b : Board) : Decidable (wonB b) := by unfold wonB; infer_instance

/-- Modelled from the spec (section 4.1, winning cells): cell `c` is empty and
would complete a four-in-a-row for the player owning stones `s` (the board
`m` is the occupation mask). -/
def winCell (s m : Board) (c : Cell) : Prop :=
  memB m c = false ∧ ∃ A ∈ alignments, c ∈ A ∧ ∀ d ∈ A, d = c ∨ memB s d = true

instance (s m : Board) (c : Cell) : Decidable (winCell s m c) := by
  unfold winCell; infer_instance

/-- The lowest empty row of column `c`, if the column is not full.
Modelled from the spec (section 4.1, legal moves). -/
def lowRow (b : Board) (c : Nat) : Option Nat :=
  (List.range 6).find? fun r => !memB b (c, r)

/-- The list of legal move cells (the lowest empty cell of each non-full
column).  Modelled from the spec (section 4.1). -/
def playableList (P : Position) : List Cell :=
  (List.range 7).filterMap fun c => (lowRow P.mask c).map fun r => (c, r)

/-- Modelled from the spec (section 4.1): the side to move has a legal move
completing a four-in-a-row. -/
def canWinNext (P : Position) : Prop :=
  ∃ c ∈ playableList P, winCell P.cur P.mask c

instance (P : Position) : Decidable (canWinNext P) := by
  unfold canWinNext; infer_instance

/-- The cell directly above a cell. -/
def above (c : Cell) : Cell := (c.1, c.2 + 1)

/-- The opponent has an immediate winning cell at `c` (a helper of
`possibleNonLosing`). -/
def oppWin (P : Position) (c : Cell) : Bool :=
  decide (winCell (oppB P) P.mask c)

/-- The opponent's forcing cells: legal move cells that would win for the
opponent (a helper of `possibleNonLosing`). -/
def forcingList (P : Position) : List Cell :=
  (playableList P).filter (oppWin P)

/-- Modelled from the spec (section 4.1): legal moves that do not hand the
opponent an immediate winning reply.  Start from all legal cells; if the
opponent has forcing cells among them, the player must play there (and only
there), two or more forcing cells mean no non-losing move; additionally a
move directly below an opponent winning cell is dropped. -/
def possibleNonLosing (P : Position) : List Cell :=
  if 2 ≤ (forcingList P).length then []
  else (if (forcingList P).length = 1 then forcingList P else playableList P).filter
    fun c => !oppWin P (above c)

/-- Modelled from the spec (sections 3 and 4.1): apply a move; the occupation
mask gains the cell, the current side flips to the opponent, and the move
count increments. -/
def play (P : Position) (c : Cell) : Position :=
  ⟨oppB P, setCell P.mask c, P.moves + 1⟩

/-- Modelled from the spec (section 4.1): the move-ordering heuristic, the
number of alignments through this cell that remain available to the current
player once they occupy it (no cell of the alignment is an opponent stone). -/
def moveScore (P : Position) (c : Cell) : Nat :=
  (alignments.filter fun A =>
    decide (c ∈ A) && A.all fun d => decide (d = c) || memB P.cur d || !memB P.mask d).length

/-- Number of occupied cells of a board. -/
def countB (b : Board) : Nat := (b.map fun col => col.count true).sum

/-- Well-formedness of a position (spec section 3 invariants): correct board
shape, stones of the mover are occupied cells, columns are filled bottom-up,
and the move counter counts the occupied cells. -/
def wf (P : Position) : Prop :=
  P.mask.length = 7 ∧ P.cur.length = 7 ∧
  (∀ col ∈ P.mask, col.length = 6) ∧ (∀ col ∈ P.cur, col.length = 6) ∧
  (∀ c, c < 7 → ∀ r, r < 6 → memB P.cur (c, r) = true → memB P.mask (c, r) = true) ∧
  (∀ c, c < 7 → ∀ r, r < 5 → memB P.mask (c, r+1) = true → memB P.mask (c, r) = true) ∧
  P.moves = countB P.mask

instance (P : Position) : Decidable (wf P) := by unfold wf; infer_instance

/-- Value of a column of Booleans as a binary number, row 0 least
significant; realises the bitboard layout of spec section 3. -/
def bitsVal : List Bool → Nat
  | [] => 0
  | b :: rest => (if b then 1 else 0) + 2 * bitsVal rest

/-- Value of a whole board in the spec's bitboard layout: column `c`
occupies bits `c*(HEIGHT+1) ..`, so columns are base-128 digits. -/
def colsVal : List (List Bool) → Nat
  | [] => 0
  | col :: rest => bitsVal col + 128 * colsVal rest

/-- Modelled from the spec (section 3): the position key
`current_position + mask` in the bitboard encoding. -/
def key (P : Position) : Nat := colsVal P.cur + colsVal P.mask

/-- Modelled from the spec (section 4.2): the table capacity, a prime near
`2^23`. -/
def ttSize : Nat := 8388617

/-- Modelled from the spec (section 4.2): a fixed-capacity lossy map, two
arrays indexed by `key mod ttSize` holding a 32-bit partial key and a small
value (0 meaning absent). -/
structure TT where
  pkey : Nat → Nat
  vals : Nat → Nat

/-- Modelled from the spec (section 4.2): reset zeroes both arrays. -/
def TT.reset : TT := ⟨fun _ => 0, fun _ => 0⟩

/-- Modelled from the spec (section 4.2): `put` overwrites the slot
`key mod ttSize` unconditionally with the partial key `key mod 2^32` and the
value. -/
def TT.put (t : TT) (k : Nat) (v : Nat) : TT :=
  let i := k % ttSize
  ⟨fun j => if j = i then k % 2 ^ 32 else t.pkey j,
   fun j => if j = i then v else t.vals j⟩

/-- Modelled from the spec (section 4.2): `get` returns the stored value if
the partial key matches, else 0. -/
def TT.get (t : TT) (k : Nat) : Nat :=
  let i := k % ttSize
  if t.pkey i = k % 2 ^ 32 then t.vals i else 0

/-- Persistent solver state: explored-node counter and transposition table
(the two data of `Solver`). -/
structure SolverSt where
  nodes : Nat
  tt : TT

/-- Solver state after `Solver::reset` (also the constructor's state). -/
def initSt : SolverSt := ⟨0, TT.reset⟩

/-- A move-sorter entry: a move cell and its heuristic score. -/
structure SEnt where
  cell : Cell
  sc : Nat

/-- Modelled from the spec (section 4.3): insert keeping ascending score
order; entries with strictly greater score end up to the right. -/
def insertAsc (e : SEnt) : List SEnt → List SEnt
  | [] => [e]
  | x :: xs => if e.sc < x.sc then e :: x :: xs else x :: insertAsc e xs

/-- Column exploration order of the solver's constructor:
`columnOrder[i] = WIDTH/2 + (1-2*(i%2))*(i+1)/2` in C++ `int` arithmetic. -/
def columnOrder (i : Nat) : Nat :=
  ((7 : Int) / 2 + Int.tdiv ((1 - 2 * ((i : Int) % 2)) * ((i : Int) + 1)) 2).toNat

/-- The sorter filled as in `negamax`: for `i = WIDTH-1` down to `0`, the cell
of `next` in column `columnOrder i` (if any) is added with its move score. -/
def sortedMoves (P : Position) (next : List Cell) : List SEnt :=
  ((List.range 7).reverse).foldl
    (fun acc i =>
      match next.find? (fun c => c.1 == columnOrder i) with
      | some c => insertAsc ⟨c, moveScore P c⟩ acc
      | none => acc) []

/-- The order in which `negamax` explores moves: repeatedly popping the
highest-score entry of the sorter. -/
def explOrder (P : Position) (next : List Cell) : List Cell :=
  ((sortedMoves P next).reverse).map fun e => e.cell

/-- The move-exploration loop of `negamax` (the `while(moves.getNext())`
loop): explore children, cut off at `beta`, raise `alpha`; when moves are
exhausted store `alpha - MIN_SCORE + 1` under the key and return `alpha`. -/
def nmLoop (child : Cell → Int → SolverSt → Int × SolverSt) (beta : Int)
    (pk : Nat) : List Cell → Int → SolverSt → Int × SolverSt
  | [], alpha, st =>
    (alpha, { st with tt := st.tt.put pk (alpha - MIN_SCORE + 1).toNat })
  | c :: rest, alpha, st =>
    let res := child c alpha st
    let score := -res.1
    if beta ≤ score then (score, res.2)
    else nmLoop child beta pk rest (if alpha < score then score else alpha) res.2

/-- One step of `Solver::negamax` (solver.cpp lines 59-108), with the
recursive call abstracted; faithful to the source's control flow. -/
def negamaxAux (rec : Position → Int → Int → SolverSt → Int × SolverSt)
    (P : Position) (alpha beta : Int) (st : SolverSt) : Int × SolverSt :=
  let st := { st with nodes := st.nodes + 1 }
  let next := possibleNonLosing P
  if next = [] then (Int.tdiv (-(42 - (P.moves : Int))) 2, st)
  else if 42 - 2 ≤ P.moves then (0, st)
  else
    let mn := Int.tdiv (-(42 - 2 - (P.moves : Int))) 2
    if alpha < mn ∧ beta ≤ mn then (mn, st)
    else
      let alpha := if alpha < mn then mn else alpha
      let v := st.tt.get (key P)
      let mx := if v ≠ 0 then (v : Int) + MIN_SCORE - 1
                else Int.tdiv (42 - 1 - (P.moves : Int)) 2
      if mx < beta ∧ mx ≤ alpha then (mx, st)
      else
        let beta := if mx < beta then mx else beta
        nmLoop (fun c a s => rec (play P c) (-beta) (-a) s) beta (key P)
          (explOrder P next) alpha st

/-- `Solver::negamax` with a fuel bound on the recursion depth (the C++
recursion depth is bounded by the 42 remaining moves; fuel 43 is always
enough for well-formed positions). -/
def negamax : Nat → Position → Int → Int → SolverSt → Int × SolverSt
  | 0, _, _, _, st => (0, st)
  | fuel + 1, P, alpha, beta, st => negamaxAux (negamax fuel) P alpha beta st

/-- The window midpoint used by `solve`, including the biasing of the probe
toward zero (solver.cpp lines 124-126). -/
def medOf (mn mx : Int) : Int :=
  let med := mn + Int.tdiv (mx - mn) 2
  if med ≤ 0 ∧ Int.tdiv mn 2 < med then Int.tdiv mn 2
  else if 0 ≤ med ∧ med < Int.tdiv mx 2 then Int.tdiv mx 2
  else med

/-- The iterative null-window narrowing loop of `Solver::solve`
(solver.cpp lines 123-130), with fuel; `none` means the fuel ran out. -/
def solveLoop (probe : Int → SolverSt → Int × SolverSt) :
    Nat → Int → Int → SolverSt → Option (Int × SolverSt)
  | 0, mn, mx, st => if mn < mx then none else some (mn, st)
  | fuel + 1, mn, mx, st =>
    if mn < mx then
      let med := medOf mn mx
      let res := probe med st
      if res.1 ≤ med then solveLoop probe fuel mn res.1 res.2
      else solveLoop probe fuel res.1 mx res.2
    else some (mn, st)

/-- `Solver::solve` (solver.cpp lines 112-132): immediate-win special case,
then the iterative narrowing driven by null-window `negamax` probes. -/
def solve (P : Position) (weak : Bool) (st : SolverSt) : Int × SolverSt :=
  if canWinNext P then (Int.tdiv (42 + 1 - (P.moves : Int)) 2, st)
  else
    let mn := if weak then -1 else Int.tdiv (-(42 - (P.moves : Int))) 2
    let mx := if weak then 1 else Int.tdiv (42 + 1 - (P.moves : Int)) 2
    match solveLoop (fun med s => negamax 43 P med (med + 1) s) 64 mn mx st with
    | some res => res
    | none => (mn, st)

/-- Maximum of a list of integers (0 for the empty list; the callers pass
nonempty lists). -/
def listMax : List Int → Int
  | [] => 0
  | x :: xs => xs.foldl max x

/-- One step of the game-value recursion: an immediate winning move realises
the best possible score `(WIDTH*HEIGHT+1 - moves)/2`; a full board is a
draw; otherwise the value is the best negated child value over all legal
moves.  This is the standard Connect-4 score the spec describes in
section 3. -/
def gvAux (rec : Position → Int) (P : Position) : Int :=
  if canWinNext P then Int.tdiv (42 + 1 - (P.moves : Int)) 2
  else
    let pl := playableList P
    if pl = [] then 0
    else listMax (pl.map fun c => -rec (play P c))

/-- Fuelled game value. -/
def gvF : Nat → Position → Int
  | 0, _ => 0
  | fuel + 1, P => gvAux (gvF fuel) P

/-- The game-theoretic value of a position (fuel 43 suffices for any
well-formed position). -/
def gv (P : Position) : Int := gvF 43 P

/-- Modelled from the spec (section 4.1, `play(sequence_string)` and
section 6): the column denoted by an input character, `'1'` to `'7'`. -/
def colOf (ch : Char) : Option Nat :=
  if 49 ≤ ch.toNat ∧ ch.toNat < 49 + 7 then some (ch.toNat - 49) else none

/-- Modelled from the spec (section 4.1): one step of the sequence form of
`play`: the character must name an in-range, non-full column whose move does
not complete a win; returns the move cell if the step is valid. -/
def stepOK (P : Position) (ch : Char) : Option Cell :=
  match colOf ch with
  | none => none
  | some col =>
    match lowRow P.mask col with
    | none => none
    | some r => if winCell P.cur P.mask (col, r) then none else some (col, r)

/-- Modelled from the spec (section 4.1): `play(sequence_string)` applies the
valid prefix of the sequence and returns the resulting position and the
number of moves applied. -/
def playChars : Position → List Char → Position × Nat
  | P, [] => (P, 0)
  | P, ch :: rest =>
    match stepOK P ch with
    | none => (P, 0)
    | some c =>
      let res := playChars (play P c) rest
      (res.1, res.2 + 1)

/-- One iteration of the driver loop of `main` (solver.cpp lines 190-205):
line number `l`, input line, weak flag and measured elapsed microseconds; the
result is the stdout line and the optional stderr diagnostic. -/
def processLine (l : Nat) (line : List Char) (weak : Bool) (elapsed : Nat) :
    String × Option String :=
  let res := playChars emptyPos line
  if res.2 ≠ line.length then
    ("", some ("Line " ++ toString l ++ ": Invalid move " ++
      toString (res.1.moves + 1) ++ " \"" ++ String.mk line ++ "\""))
  else
    let sres := solve res.1 weak initSt
    (String.mk line ++ " " ++ toString sres.1 ++ " " ++
      toString sres.2.nodes ++ " " ++ toString elapsed, none)

/-! ### Arithmetic helpers: truncating division by 2 -/

theorem tdiv2_bounds (x : Int) (hx : 0 ≤ x) :
    2 * x.tdiv 2 ≤ x ∧ x < 2 * x.tdiv 2 + 2 := by
  have h1 := Int.tdiv_add_tmod x 2
  have h2 : x.tmod 2 < 2 := by
    have := Int.tmod_lt_of_pos x (show (0:Int) < 2 by norm_num)
    omega
  have h3 : 0 ≤ x.tmod 2 := Int.tmod_nonneg 2 (by omega)
  omega

theorem neg_tdiv2 (x : Int) : (-x).tdiv 2 = -(x.tdiv 2) := Int.neg_tdiv x 2

/-! ### List maximum helpers -/

theorem le_foldl_max_init (l : List Int) (b : Int) : b ≤ l.foldl max b := by
  induction l generalizing b with
  | nil => simp
  | cons x xs ih => exact le_trans (le_max_left b x) (ih (max b x))

theorem le_foldl_max_mem {l : List Int} {a : Int} (h : a ∈ l) (b : Int) :
    a ≤ l.foldl max b := by
  induction l generalizing b with
  | nil => cases h
  | cons x xs ih =>
    rcases List.mem_cons.1 h with rfl | h2
    · exact le_trans (le_max_right b a) (le_foldl_max_init xs (max b a))
    · exact ih h2 (max b x)

theorem foldl_max_le {l : List Int} {x : Int} (b : Int) (h : ∀ a ∈ l, a ≤ x)
    (hb : b ≤ x) : l.foldl max b ≤ x := by
  induction l generalizing b with
  | nil => simpa
  | cons y ys ih =>
    exact ih (max b y) (fun a ha => h a (List.mem_cons_of_mem y ha))
      (max_le hb (h y (List.mem_cons_self y ys)))

theorem foldl_max_mem_or (l : List Int) (b : Int) :
    l.foldl max b = b ∨ l.foldl max b ∈ l := by
  induction l generalizing b with
  | nil => left; rfl
  | cons x xs ih =>
    rcases ih (max b x) with h | h
    · rcases max_choice b x with h2 | h2
      · left; simpa [h2] using h
      · right; rw [List.foldl_cons, h, h2]; exact List.mem_cons_self x xs
    · right; exact List.mem_cons_of_mem x h

theorem le_listMax {l : List Int} {a : Int} (h : a ∈ l) : a ≤ listMax l := by
  cases l with
  | nil => cases h
  | cons x xs =>
    show a ≤ xs.foldl max x
    rcases List.mem_cons.1 h with rfl | h2
    · exact le_foldl_max_init xs a
    · exact le_foldl_max_mem h2 x

theorem listMax_le {l : List Int} {x : Int} (h : l ≠ []) (h2 : ∀ a ∈ l, a ≤ x) :
    listMax l ≤ x := by
  cases l with
  | nil => cases h rfl
  | cons y ys =>
    show ys.foldl max y ≤ x
    exact foldl_max_le y (fun a ha => h2 a (List.mem_cons_of_mem y ha))
      (h2 y (List.mem_cons_self y ys))

theorem listMax_mem {l : List Int} (h : l ≠ []) : listMax l ∈ l := by
  cases l with
  | nil => cases h rfl
  | cons y ys =>
    show ys.foldl max y ∈ y :: ys
    rcases foldl_max_mem_or ys y with h2 | h2
    · rw [h2]; exact List.mem_cons_self y ys
    · exact List.mem_cons_of_mem y h2

/-! ### Board membership characterizations -/

/-- Shape of a board: 7 columns of 6 cells. -/
def shape (b : Board) : Prop := b.length = 7 ∧ ∀ col ∈ b, col.length = 6

theorem shape_emptyB : shape emptyB := by
  constructor
  · rfl
  · intro col h
    rw [List.eq_of_mem_replicate h]
    rfl

theorem memB_eq_colD (b : Board) (c : Cell) :
    memB b c = (b.getD c.1 []).getD c.2 false := rfl

theorem getD_out {b : Board} (h1 : b.length = 7) {c : Nat} (h : 7 ≤ c) :
    b.getD c [] = [] := by
  rw [List.getD_eq_getElem?_getD, List.getElem?_eq_none (by omega)]
  rfl

theorem getD_col_length {b : Board} {c : Nat} (hb : shape b) (hc : c < 7) :
    (b.getD c []).length = 6 := by
  obtain ⟨h1, h2⟩ := hb
  have hcol : b[c]? = some b[c] := List.getElem?_eq_getElem (by omega)
  rw [List.getD_eq_getElem?_getD, hcol]
  exact h2 _ (List.getElem_mem (by omega))

theorem colD_out {col : List Bool} (hlen : col.length = 6) {r : Nat} (h : 6 ≤ r) :
    col.getD r false = false := by
  rw [List.getD_eq_getElem?_getD, List.getElem?_eq_none (by omega)]
  rfl

theorem memB_out {b : Board} {c : Cell} (hb : shape b) (h : 7 ≤ c.1 ∨ 6 ≤ c.2) :
    memB b c = false := by
  rw [memB_eq_colD]
  rcases h with h | h
  · rw [getD_out hb.1 h]
    rfl
  · rcases Nat.lt_or_ge c.1 7 with hc | hc
    · exact colD_out (getD_col_length hb hc) h
    · rw [getD_out hb.1 hc]
      rfl

theorem shape_setCell {b : Board} {c : Cell} (hb : shape b) (hc1 : c.1 < 7) :
    shape (setCell b c) := by
  obtain ⟨h1, h2⟩ := hb
  constructor
  · rw [setCell, List.length_set, h1]
  · intro col h
    rcases List.mem_or_eq_of_mem_set h with h3 | h3
    · exact h2 _ h3
    · rw [h3, List.length_set]
      exact getD_col_length ⟨h1, h2⟩ hc1

theorem setCell_getD_other {b : Board} {c : Cell} {j : Nat} (h : j ≠ c.1) :
    (setCell b c).getD j [] = b.getD j [] := by
  rw [setCell]
  simp only [List.getD_eq_getElem?_getD]
  rw [List.getElem?_set]
  simp only [if_neg (fun h2 : c.1 = j => h h2.symm)]

theorem setCell_getD_same {b : Board} {c : Cell} (h1 : b.length = 7)
    (hc1 : c.1 < 7) :
    (setCell b c).getD c.1 [] = (b.getD c.1 []).set c.2 true := by
  rw [setCell, List.getD_eq_getElem?_getD, List.getElem?_set, if_pos rfl,
    if_pos (by omega)]
  rfl

theorem memB_setCell {b : Board} {c d : Cell} (hb : shape b) (hc1 : c.1 < 7)
    (hc2 : c.2 < 6) :
    memB (setCell b c) d = (memB b d || decide (d = c)) := by
  have hlen : (b.getD c.1 []).length = 6 := getD_col_length hb hc1
  by_cases hdc : d.1 = c.1
  · rw [memB_eq_colD, memB_eq_colD, hdc, setCell_getD_same hb.1 hc1]
    by_cases hdr : d.2 = c.2
    · have hset : ((b.getD c.1 []).set c.2 true).getD d.2 false = true := by
        rw [List.getD_eq_getElem?_getD, List.getElem?_set, if_pos hdr.symm,
          if_pos (by omega)]
        rfl
      have heq : decide (d = c) = true :=
        decide_eq_true (Prod.ext hdc hdr)
      rw [hset, heq, Bool.or_true]
    · have hset : ((b.getD c.1 []).set c.2 true).getD d.2 false =
          (b.getD c.1 []).getD d.2 false := by
        simp only [List.getD_eq_getElem?_getD]
        rw [List.getElem?_set]
        simp only [if_neg (fun h2 : c.2 = d.2 => hdr h2.symm)]
      have hne : decide (d = c) = false :=
        decide_eq_false (fun h => hdr (by rw [h]))
      rw [hset, hne, Bool.or_false]
  · rw [memB_eq_colD, memB_eq_colD, setCell_getD_other hdc]
    have hne : decide (d = c) = false :=
      decide_eq_false (fun h => hdc (by rw [h]))
    rw [hne, Bool.or_false]

theorem memB_setCell_other_col {b : Board} {c d : Cell} (h : d.1 ≠ c.1) :
    memB (setCell b c) d = memB b d := by
  rw [memB_eq_colD, memB_eq_colD, setCell_getD_other h]

/-! ### diffB characterization -/

theorem shape_diffB {m cu : Board} (hm : shape m) (hcu : shape cu) :
    shape (diffB m cu) := by
  have hm1 : m.length = 7 := hm.1
  have hc1 : cu.length = 7 := hcu.1
  constructor
  · rw [diffB, List.length_zipWith, hm1, hc1]
    omega
  · intro col h
    rw [List.mem_iff_getElem] at h
    obtain ⟨i, hi, hcol⟩ := h
    rw [diffB, List.length_zipWith, hm1, hc1] at hi
    have him : i < m.length := by omega
    have hic : i < cu.length := by omega
    have h1 : (diffB m cu)[i]? = some col := by
      rw [← hcol]
      exact List.getElem?_eq_getElem (by rw [diffB, List.length_zipWith, hm1, hc1]; omega)
    rw [diffB, List.getElem?_zipWith] at h1
    rw [List.getElem?_eq_getElem him, List.getElem?_eq_getElem hic] at h1
    simp only [Option.some.injEq] at h1
    rw [← h1, List.length_zipWith, hm.2 _ (List.getElem_mem him),
      hcu.2 _ (List.getElem_mem hic)]
    omega

theorem memB_eq_getElem {b : Board} {c : Cell} (hi : c.1 < b.length)
    (hr : c.2 < (b[c.1]).length) : memB b c = (b[c.1])[c.2] := by
  have h1 : b.getD c.1 [] = b[c.1] := by
    rw [List.getD_eq_getElem?_getD, List.getElem?_eq_getElem hi]
    rfl
  rw [memB_eq_colD, h1, List.getD_eq_getElem?_getD, List.getElem?_eq_getElem hr]
  rfl

theorem memB_diffB {m cu : Board} {d : Cell} (hm : shape m) (hcu : shape cu) :
    memB (diffB m cu) d = (memB m d && !(memB cu d)) := by
  have hm1 : m.length = 7 := hm.1
  have hc1 : cu.length = 7 := hcu.1
  rcases Nat.lt_or_ge d.1 7 with hd1 | hd1
  · rcases Nat.lt_or_ge d.2 6 with hd2 | hd2
    · have him : d.1 < m.length := by omega
      have hic : d.1 < cu.length := by omega
      have hmlen : (m[d.1]).length = 6 := hm.2 _ (List.getElem_mem him)
      have hclen : (cu[d.1]).length = 6 := hcu.2 _ (List.getElem_mem hic)
      have hid : d.1 < (diffB m cu).length := by
        rw [(shape_diffB hm hcu).1]
        omega
      have hrd : d.2 < ((diffB m cu)[d.1]).length := by
        rw [(shape_diffB hm hcu).2 _ (List.getElem_mem hid)]
        omega
      have hrm : d.2 < (m[d.1]).length := by omega
      have hrc : d.2 < (cu[d.1]).length := by omega
      rw [memB_eq_getElem hid hrd, memB_eq_getElem him hrm, memB_eq_getElem hic hrc]
      simp only [diffB, List.getElem_zipWith]
    · rw [memB_out (shape_diffB hm hcu) (Or.inr hd2), memB_out hm (Or.inr hd2)]
      rfl
  · rw [memB_out (shape_diffB hm hcu) (Or.inl hd1), memB_out hm (Or.inl hd1)]
    rfl

/-! ### lowRow and playable cells -/

theorem find?_range_some {n r : Nat} {p : Nat → Bool} :
    (List.range n).find? p = some r ↔
      r < n ∧ p r = true ∧ ∀ j < r, p j = false := by
  induction n generalizing r with
  | zero => simp
  | succ n ih =>
    rw [List.range_succ, List.find?_append]
    constructor
    · intro h
      rcases h1 : (List.range n).find? p with _ | r2
      · rw [h1] at h
        simp only [Option.none_or] at h
        have hn : p n = true ∧ r = n := by
          by_cases hp : p n
          · refine ⟨hp, ?_⟩
            rw [List.find?_cons_of_pos _ hp] at h
            exact (Option.some.injEq _ _ ▸ h).symm
          · rw [List.find?_cons_of_neg _ hp] at h
            cases h
        have hnone := List.find?_eq_none.1 h1
        refine ⟨by omega, hn.2 ▸ hn.1, ?_⟩
        intro j hj
        have := hnone j (List.mem_range.2 (by omega))
        simpa using this
      · rw [h1] at h
        have h5 : (some r2 : Option Nat) = some r := h
        obtain ⟨h2, h3, h4⟩ := ih.1 h1
        cases h5
        exact ⟨by omega, h3, h4⟩
    · rintro ⟨h1, h2, h3⟩
      rcases Nat.lt_or_ge r n with hr | hr
      · rw [ih.2 ⟨hr, h2, h3⟩]
        rfl
      · have hrn : r = n := by omega
        have hnone : (List.range n).find? p = none := by
          rw [List.find?_eq_none]
          intro j hj
          rw [h3 j (by rw [hrn] at *; exact List.mem_range.1 hj)]
          simp
        rw [hnone, Option.none_or, hrn, List.find?_cons_of_pos _ (hrn ▸ h2)]

theorem lowRow_some {b : Board} {c r : Nat} :
    lowRow b c = some r ↔
      r < 6 ∧ memB b (c, r) = false ∧ ∀ j < r, memB b (c, j) = true := by
  rw [lowRow, find?_range_some]
  constructor
  · rintro ⟨h1, h2, h3⟩
    refine ⟨h1, by simpa using h2, fun j hj => by simpa using h3 j hj⟩
  · rintro ⟨h1, h2, h3⟩
    refine ⟨h1, by simp [h2], fun j hj => by simp [h3 j hj]⟩

theorem lowRow_none {b : Board} {c : Nat} :
    lowRow b c = none ↔ ∀ j < 6, memB b (c, j) = true := by
  rw [lowRow, List.find?_eq_none]
  constructor
  · intro h j hj
    have := h j (List.mem_range.2 hj)
    simpa using this
  · intro h j hj
    simp [h j (List.mem_range.1 hj)]

theorem mem_playableList {P : Position} {d : Cell} :
    d ∈ playableList P ↔ d.1 < 7 ∧ lowRow P.mask d.1 = some d.2 := by
  rw [playableList, List.mem_filterMap]
  constructor
  · rintro ⟨a, ha, h⟩
    rcases h2 : lowRow P.mask a with _ | r
    · rw [h2] at h; cases h
    · rw [h2] at h
      have h3 : (some (a, r) : Option Cell) = some d := h
      cases h3
      exact ⟨List.mem_range.1 ha, h2⟩
  · rintro ⟨h1, h2⟩
    exact ⟨d.1, List.mem_range.2 h1, by rw [h2]; rfl⟩

theorem playable_col_lt {P : Position} {d : Cell} (h : d ∈ playableList P) :
    d.1 < 7 := (mem_playableList.1 h).1

theorem playable_row_lt {P : Position} {d : Cell} (h : d ∈ playableList P) :
    d.2 < 6 := (lowRow_some.1 (mem_playableList.1 h).2).1

theorem playable_empty {P : Position} {d : Cell} (h : d ∈ playableList P) :
    memB P.mask d = false := (lowRow_some.1 (mem_playableList.1 h).2).2.1

theorem playable_below {P : Position} {d : Cell} (h : d ∈ playableList P) :
    ∀ j < d.2, memB P.mask (d.1, j) = true :=
  (lowRow_some.1 (mem_playableList.1 h).2).2.2

theorem playable_unique_col {P : Position} {d e : Cell} (hd : d ∈ playableList P)
    (he : e ∈ playableList P) (h : d.1 = e.1) : d = e := by
  obtain ⟨h1, h2⟩ := mem_playableList.1 hd
  obtain ⟨h3, h4⟩ := mem_playableList.1 he
  rw [h] at h2
  rw [h2] at h4
  exact Prod.ext h (Option.some.injEq _ _ ▸ h4)

/-! ### Counting -/

theorem count_set_true {col : List Bool} {r : Nat} (hr : r < col.length)
    (he : col.getD r false = false) :
    (col.set r true).count true = col.count true + 1 := by
  induction col generalizing r with
  | nil => simp at hr
  | cons x xs ih =>
    cases r with
    | zero =>
      have hx : x = false := by simpa using he
      subst hx
      simp [List.count_cons]
    | succ r =>
      have hr2 : r < xs.length := by simpa using hr
      have he2 : xs.getD r false = false := by simpa using he
      simp only [List.set_cons_succ, List.count_cons, ih hr2 he2]
      omega

theorem sum_map_count_set (b : Board) (i : Nat) (newcol : List Bool)
    (hcount : newcol.count true = (b.getD i []).count true + 1)
    (hi : i < b.length) :
    ((b.set i newcol).map (fun col => col.count true)).sum =
      (b.map (fun col => col.count true)).sum + 1 := by
  induction b generalizing i with
  | nil => simp at hi
  | cons x xs ih =>
    cases i with
    | zero =>
      simp only [List.getD_cons_zero] at hcount
      simp only [List.set_cons_zero, List.map_cons, List.sum_cons, hcount]
      omega
    | succ i =>
      simp only [List.getD_cons_succ] at hcount
      simp only [List.set_cons_succ, List.map_cons, List.sum_cons]
      have := ih i hcount (by simpa using hi)
      omega

theorem countB_setCell {b : Board} (hb : shape b) {c : Cell} (hc1 : c.1 < 7)
    (hc2 : c.2 < 6) (he : memB b c = false) :
    countB (setCell b c) = countB b + 1 := by
  have hlen : (b.getD c.1 []).length = 6 := getD_col_length hb hc1
  have hcount : ((b.getD c.1 []).set c.2 true).count true =
      (b.getD c.1 []).count true + 1 :=
    count_set_true (by omega) (by rw [memB_eq_colD] at he; exact he)
  rw [countB, countB, setCell]
  exact sum_map_count_set b c.1 _ hcount (by rw [hb.1]; omega)

theorem sum_le_of_all_le {l : List Nat} {k : Nat} (h : ∀ x ∈ l, x ≤ k) :
    l.sum ≤ l.length * k := by
  induction l with
  | nil => simp
  | cons x xs ih =>
    simp only [List.sum_cons, List.length_cons]
    have h1 := h x (List.mem_cons_self x xs)
    have h2 := ih (fun y hy => h y (List.mem_cons_of_mem x hy))
    calc x + xs.sum ≤ k + xs.length * k := by omega
    _ = (xs.length + 1) * k := by ring

theorem sum_lt_of_lt_at {l : List Nat} {k i : Nat} (hi : i < l.length)
    (hall : ∀ x ∈ l, x ≤ k) (hlt : l[i] < k) : l.sum < l.length * k := by
  induction l generalizing i with
  | nil => simp at hi
  | cons x xs ih =>
    simp only [List.sum_cons, List.length_cons]
    cases i with
    | zero =>
      simp only [List.getElem_cons_zero] at hlt
      have h2 := sum_le_of_all_le (fun y hy => hall y (List.mem_cons_of_mem x hy))
      calc x + xs.sum < k + xs.length * k := by omega
      _ = (xs.length + 1) * k := by ring
    | succ i =>
      have h1 := hall x (List.mem_cons_self x xs)
      have h2 := ih (by simpa using hi)
        (fun y hy => hall y (List.mem_cons_of_mem x hy))
        (by simpa using hlt)
      calc x + xs.sum < k + xs.length * k := by omega
      _ = (xs.length + 1) * k := by ring

theorem countB_le_42 {b : Board} (hb : shape b) : countB b ≤ 42 := by
  have h : ∀ x ∈ b.map (fun col => col.count true), x ≤ 6 := by
    intro x hx
    rw [List.mem_map] at hx
    obtain ⟨col, hcol, rfl⟩ := hx
    calc col.count true ≤ col.length := List.count_le_length true col
    _ = 6 := hb.2 col hcol
  calc countB b ≤ (b.map (fun col => col.count true)).length * 6 := sum_le_of_all_le h
  _ = 42 := by rw [List.length_map, hb.1]

theorem sum_map_count_all6 (b : Board) (h : ∀ col ∈ b, col.count true = 6) :
    (b.map (fun col => col.count true)).sum = b.length * 6 := by
  induction b with
  | nil => simp
  | cons x xs ih =>
    simp only [List.map_cons, List.sum_cons, List.length_cons,
      h x (List.mem_cons_self x xs),
      ih (fun col hcol => h col (List.mem_cons_of_mem x hcol))]
    ring

theorem countB_eq_42 {b : Board} (hb : shape b)
    (h : ∀ c, c < 7 → ∀ r, r < 6 → memB b (c, r) = true) : countB b = 42 := by
  have hcols : ∀ col ∈ b, col.count true = 6 := by
    intro col hcol
    rw [List.mem_iff_getElem] at hcol
    obtain ⟨i, hi, rfl⟩ := hcol
    have hlen : (b[i]).length = 6 := hb.2 _ (List.getElem_mem hi)
    rw [← hlen, List.count_eq_length]
    intro x hx
    rw [List.mem_iff_getElem] at hx
    obtain ⟨r, hr, rfl⟩ := hx
    have hmem := h i (by rw [hb.1] at hi; exact hi) r (by omega)
    rw [memB_eq_getElem hi hr] at hmem
    exact hmem.symm
  rw [countB, sum_map_count_all6 b hcols, hb.1]

theorem playable_nil_iff {P : Position} (hw : shape P.mask) :
    playableList P = [] ↔ countB P.mask = 42 := by
  constructor
  · intro h
    apply countB_eq_42 hw
    intro c hc
    by_contra hcon
    push_neg at hcon
    obtain ⟨r, hr, hmem⟩ := hcon
    have : ∃ j, lowRow P.mask c = some j := by
      rcases h2 : lowRow P.mask c with _ | j
      · rw [lowRow_none] at h2
        exact absurd (h2 r hr) (by simp [hmem])
      · exact ⟨j, rfl⟩
    obtain ⟨j, hj⟩ := this
    have : (c, j) ∈ playableList P := mem_playableList.2 ⟨hc, hj⟩
    rw [h] at this
    cases this
  · intro h
    by_contra hcon
    have : ∃ d, d ∈ playableList P := by
      rcases h2 : playableList P with _ | ⟨d, rest⟩
      · exact absurd h2 hcon
      · exact ⟨d, h2 ▸ List.mem_cons_self d rest⟩
    obtain ⟨d, hd⟩ := this
    have he := playable_empty hd
    have hc1 := playable_col_lt hd
    have hc2 := playable_row_lt hd
    -- the column of d has count < 6, contradicting countB = 42
    have hi : d.1 < P.mask.length := by rw [hw.1]; omega
    have hlen2 : (P.mask[d.1]).length = 6 := hw.2 _ (List.getElem_mem hi)
    have hcnt : (P.mask[d.1]).count true < 6 := by
      rcases Nat.lt_or_ge ((P.mask[d.1]).count true) 6 with h3 | h3
      · exact h3
      · exfalso
        have hle := List.count_le_length true (P.mask[d.1])
        have hall6 : (P.mask[d.1]).count true = (P.mask[d.1]).length := by
          omega
        rw [List.count_eq_length] at hall6
        have hrr : d.2 < (P.mask[d.1]).length := by omega
        have hdmem : memB P.mask d = true := by
          rw [memB_eq_getElem hi hrr]
          exact (hall6 _ (List.getElem_mem hrr)).symm
        rw [he] at hdmem
        cases hdmem
    -- now sum over columns: one column < 6, rest ≤ 6, total < 42
    have hall : ∀ x ∈ P.mask.map (fun col => col.count true), x ≤ 6 := by
      intro x hx
      rw [List.mem_map] at hx
      obtain ⟨col, hcol2, rfl⟩ := hx
      calc col.count true ≤ col.length := List.count_le_length true col
      _ = 6 := hw.2 col hcol2
    have himap : d.1 < (P.mask.map (fun col => col.count true)).length := by
      rw [List.length_map]
      omega
    have hlt : countB P.mask < 42 := by
      have hstep := sum_lt_of_lt_at (l := P.mask.map (fun col => col.count true))
        (k := 6) (i := d.1) himap hall (by rw [List.getElem_map]; exact hcnt)
      rw [List.length_map, hw.1] at hstep
      exact hstep
    omega

/-! ### Well-formedness: accessors and preservation under play -/

theorem wf_shape_mask {P : Position} (hw : wf P) : shape P.mask :=
  ⟨hw.1, hw.2.2.1⟩

theorem wf_shape_cur {P : Position} (hw : wf P) : shape P.cur :=
  ⟨hw.2.1, hw.2.2.2.1⟩

theorem wf_moves {P : Position} (hw : wf P) : P.moves = countB P.mask :=
  hw.2.2.2.2.2.2

theorem wf_sub_mem {P : Position} (hw : wf P) {d : Cell}
    (h : memB P.cur d = true) : memB P.mask d = true := by
  rcases Nat.lt_or_ge d.1 7 with h1 | h1
  · rcases Nat.lt_or_ge d.2 6 with h2 | h2
    · exact hw.2.2.2.2.1 d.1 h1 d.2 h2 h
    · rw [memB_out (wf_shape_cur hw) (Or.inr h2)] at h
      cases h
  · rw [memB_out (wf_shape_cur hw) (Or.inl h1)] at h
    cases h

theorem wf_closed_mem {P : Position} (hw : wf P) {c r : Nat}
    (h : memB P.mask (c, r + 1) = true) : memB P.mask (c, r) = true := by
  rcases Nat.lt_or_ge c 7 with h1 | h1
  · rcases Nat.lt_or_ge (r + 1) 6 with h2 | h2
    · exact hw.2.2.2.2.2.1 c h1 r (by omega) h
    · rw [memB_out (wf_shape_mask hw) (Or.inr h2)] at h
      cases h
  · rw [memB_out (wf_shape_mask hw) (Or.inl h1)] at h
    cases h

theorem memB_oppB {P : Position} (hw : wf P) (d : Cell) :
    memB (oppB P) d = (memB P.mask d && !(memB P.cur d)) :=
  memB_diffB (wf_shape_mask hw) (wf_shape_cur hw)

theorem play_cur (P : Position) (c : Cell) : (play P c).cur = oppB P := rfl

theorem play_mask (P : Position) (c : Cell) : (play P c).mask = setCell P.mask c := rfl

theorem play_moves (P : Position) (c : Cell) : (play P c).moves = P.moves + 1 := rfl

theorem wf_play {P : Position} (hw : wf P) {c : Cell} (hc : c ∈ playableList P) :
    wf (play P c) := by
  have hc1 := playable_col_lt hc
  have hc2 := playable_row_lt hc
  have hsm := wf_shape_mask hw
  have hsc := wf_shape_cur hw
  have hmask : shape (setCell P.mask c) := shape_setCell hsm hc1
  have hopp : shape (oppB P) := shape_diffB hsm hsc
  refine ⟨hmask.1, hopp.1, hmask.2, hopp.2, ?_, ?_, ?_⟩
  · intro c' hlt r hr h
    show memB (setCell P.mask c) (c', r) = true
    have h2 : memB (oppB P) (c', r) = true := h
    rw [memB_oppB hw] at h2
    have h3 : memB P.mask (c', r) = true := by
      rcases Bool.and_eq_true_iff.1 h2 with ⟨h4, _⟩
      exact h4
    rw [memB_setCell hsm hc1 hc2, h3]
    rfl
  · intro c' hlt r hr h
    show memB (setCell P.mask c) (c', r) = true
    have h2 : memB (setCell P.mask c) (c', r + 1) = true := h
    rw [memB_setCell hsm hc1 hc2] at h2 ⊢
    rcases Bool.or_eq_true_iff.1 h2 with h3 | h3
    · rw [wf_closed_mem hw h3]
      rfl
    · have h4 : (c', r + 1) = c := of_decide_eq_true h3
      have h5 : memB P.mask (c', r) = true := by
        have hcc : c = (c', r + 1) := h4.symm
        have := playable_below hc r (by rw [hcc]; omega)
        rw [hcc] at this
        exact this
      rw [h5]
      rfl
  · show P.moves + 1 = countB (setCell P.mask c)
    rw [countB_setCell hsm hc1 hc2 (playable_empty hc), wf_moves hw]

theorem memB_oppB_play {P : Position} (hw : wf P) {c : Cell}
    (hc : c ∈ playableList P) (d : Cell) :
    memB (oppB (play P c)) d = (memB P.cur d || decide (d = c)) := by
  have hc1 := playable_col_lt hc
  have hc2 := playable_row_lt hc
  have hsm := wf_shape_mask hw
  have hw2 := wf_play hw hc
  have h1 : memB (oppB (play P c)) d =
      (memB (setCell P.mask c) d && !(memB (oppB P) d)) :=
    memB_diffB (wf_shape_mask hw2) (wf_shape_cur hw2)
  rw [h1, memB_setCell hsm hc1 hc2, memB_oppB hw]
  by_cases hdc : d = c
  · subst hdc
    rw [playable_empty hc]
    simp
  · rw [decide_eq_false hdc]
    rcases h2 : memB P.cur d with _ | _
    · simp only [Bool.or_false]
      rcases h3 : memB P.mask d with _ | _
      · rfl
      · simp [h2]
    · have h3 : memB P.mask d = true := wf_sub_mem hw h2
      simp [h3]

theorem alignBounds : ∀ A ∈ alignments, ∀ p ∈ A, p.1 < 7 ∧ p.2 < 6 := by decide

theorem winCell_lt {s m : Board} {d : Cell} (h : winCell s m d) :
    d.1 < 7 ∧ d.2 < 6 := by
  obtain ⟨h1, A, hA, hdA, h2⟩ := h
  exact alignBounds A hA d hdA

theorem not_won_opp_play {P : Position} (hw : wf P) (hcw : ¬canWinNext P)
    (hwon : ¬wonB P.cur) {c : Cell} (hc : c ∈ playableList P) :
    ¬wonB (oppB (play P c)) := by
  rintro ⟨A, hA, hall⟩
  by_cases hcA : c ∈ A
  · apply hcw
    refine ⟨c, hc, playable_empty hc, A, hA, hcA, ?_⟩
    intro d hd
    by_cases hdc : d = c
    · exact Or.inl hdc
    · right
      have h2 := hall d hd
      rw [memB_oppB_play hw hc, decide_eq_false hdc, Bool.or_false] at h2
      exact h2
  · apply hwon
    refine ⟨A, hA, ?_⟩
    intro d hd
    have h2 := hall d hd
    have hdc : d ≠ c := fun h => hcA (h ▸ hd)
    rw [memB_oppB_play hw hc, decide_eq_false hdc, Bool.or_false] at h2
    exact h2

/-! ### Non-losing moves: safety and exhaustiveness -/

theorem winCell_setCell {s m : Board} (hm : shape m) {c d : Cell}
    (hc1 : c.1 < 7) (hc2 : c.2 < 6) :
    winCell s (setCell m c) d ↔ winCell s m d ∧ d ≠ c := by
  unfold winCell
  rw [memB_setCell hm hc1 hc2]
  constructor
  · rintro ⟨h1, h2⟩
    rcases Bool.or_eq_false_iff.1 h1 with ⟨h3, h4⟩
    exact ⟨⟨h3, h2⟩, of_decide_eq_false h4⟩
  · rintro ⟨⟨h1, h2⟩, h3⟩
    refine ⟨?_, h2⟩
    rw [h1, decide_eq_false h3]
    rfl

theorem mem_forcingList {P : Position} {c : Cell} :
    c ∈ forcingList P ↔ c ∈ playableList P ∧ oppWin P c = true :=
  List.mem_filter

theorem possibleNonLosing_subset {P : Position} {c : Cell}
    (h : c ∈ possibleNonLosing P) : c ∈ playableList P := by
  unfold possibleNonLosing at h
  by_cases h2 : 2 ≤ (forcingList P).length
  · rw [if_pos h2] at h
    cases h
  · rw [if_neg h2] at h
    have h3 := List.mem_of_mem_filter h
    by_cases h4 : (forcingList P).length = 1
    · rw [if_pos h4] at h3
      exact (mem_forcingList.1 h3).1
    · rw [if_neg h4] at h3
      exact h3

theorem possibleNonLosing_not_below {P : Position} {c : Cell}
    (h : c ∈ possibleNonLosing P) : oppWin P (above c) = false := by
  unfold possibleNonLosing at h
  by_cases h2 : 2 ≤ (forcingList P).length
  · rw [if_pos h2] at h
    cases h
  · rw [if_neg h2] at h
    have h3 := (List.mem_filter.1 h).2
    rcases h4 : oppWin P (above c) with _ | _
    · rfl
    · rw [h4] at h3
      cases h3

theorem possibleNonLosing_forcing {P : Position} {c f : Cell}
    (h : c ∈ possibleNonLosing P) (hf : f ∈ playableList P)
    (hwin : oppWin P f = true) : f = c := by
  have hmem : f ∈ forcingList P := mem_forcingList.2 ⟨hf, hwin⟩
  unfold possibleNonLosing at h
  by_cases h2 : 2 ≤ (forcingList P).length
  · rw [if_pos h2] at h
    cases h
  · rw [if_neg h2] at h
    have hlen : (forcingList P).length = 1 := by
      have h0 : (forcingList P).length ≠ 0 := by
        intro h0
        rw [List.length_eq_zero] at h0
        rw [h0] at hmem
        cases hmem
      omega
    rw [if_pos hlen] at h
    have hc2 := List.mem_of_mem_filter h
    obtain ⟨x, hx⟩ := List.length_eq_one.1 hlen
    rw [hx] at hmem hc2
    rw [List.mem_singleton.1 hmem, ← List.mem_singleton.1 hc2]

theorem lowRow_setCell_other {b : Board} {c : Cell} {j : Nat} (h : j ≠ c.1) :
    lowRow (setCell b c) j = lowRow b j := by
  unfold lowRow
  have heq : (fun r => !memB (setCell b c) (j, r)) = fun r => !memB b (j, r) := by
    funext r
    rw [memB_setCell_other_col (show ((j, r) : Cell).1 ≠ c.1 from h)]
  rw [heq]

theorem mem_playable_play {P : Position} (hw : wf P) {c : Cell}
    (hc : c ∈ playableList P) {d : Cell} :
    d ∈ playableList (play P c) ↔
      (d ∈ playableList P ∧ d ≠ c) ∨ (d = above c ∧ c.2 + 1 < 6) := by
  have hc1 := playable_col_lt hc
  have hc2 := playable_row_lt hc
  have hlowc : lowRow P.mask c.1 = some c.2 := (mem_playableList.1 hc).2
  rw [mem_playableList, play_mask]
  constructor
  · rintro ⟨hd1, hd2⟩
    by_cases hcol : d.1 = c.1
    · right
      rw [hcol, lowRow_some] at hd2
      obtain ⟨hr6, hempty, hbelow⟩ := hd2
      rw [memB_setCell (wf_shape_mask hw) hc1 hc2] at hempty
      rcases Bool.or_eq_false_iff.1 hempty with ⟨he1, he2⟩
      have hdc : ((c.1, d.2) : Cell) ≠ c := of_decide_eq_false he2
      have hgt : c.2 < d.2 := by
        rcases Nat.lt_trichotomy d.2 c.2 with hlt | heq | hgt
        · have hb := playable_below hc d.2 hlt
          rw [hb] at he1
          cases he1
        · exfalso
          apply hdc
          rw [heq]
        · exact hgt
      have heq : d.2 = c.2 + 1 := by
        by_contra hne
        have hlt : c.2 + 1 < d.2 := by omega
        have hb := hbelow (c.2 + 1) hlt
        rw [memB_setCell (wf_shape_mask hw) hc1 hc2] at hb
        rcases Bool.or_eq_true_iff.1 hb with hb1 | hb1
        · have h3 := wf_closed_mem hw hb1
          have hpe := playable_empty hc
          rw [show ((c.1, c.2) : Cell) = c from rfl, hpe] at h3
          cases h3
        · have h3 : ((c.1, c.2 + 1) : Cell) = c := of_decide_eq_true hb1
          have h4 := congrArg Prod.snd h3
          simp only at h4
          omega
      refine ⟨?_, by omega⟩
      have : d = (d.1, d.2) := rfl
      rw [this, hcol, heq]
      rfl
    · left
      refine ⟨mem_playableList.2 ⟨hd1, by rwa [lowRow_setCell_other hcol] at hd2⟩, ?_⟩
      intro hdc
      rw [hdc] at hcol
      exact hcol rfl
  · rintro (⟨hdP, hdc⟩ | ⟨hda, hlt⟩)
    · obtain ⟨hd1, hd2⟩ := mem_playableList.1 hdP
      refine ⟨hd1, ?_⟩
      by_cases hcol : d.1 = c.1
      · exact absurd (playable_unique_col hdP hc hcol) hdc
      · rwa [lowRow_setCell_other hcol]
    · subst hda
      refine ⟨by simpa [above] using hc1, ?_⟩
      rw [lowRow_some]
      refine ⟨by simpa [above] using hlt, ?_, ?_⟩
      · show memB (setCell P.mask c) (c.1, c.2 + 1) = false
        rw [memB_setCell (wf_shape_mask hw) hc1 hc2]
        have h1 : memB P.mask (c.1, c.2 + 1) = false := by
          rcases h2 : memB P.mask (c.1, c.2 + 1) with _ | _
          · rfl
          · have h3 := wf_closed_mem hw h2
            rw [show ((c.1, c.2) : Cell) = c from rfl, playable_empty hc] at h3
            cases h3
        rw [h1]
        have h2 : ((c.1, c.2 + 1) : Cell) ≠ c := by
          intro h3
          have h4 := congrArg Prod.snd h3
          simp only at h4
          omega
        rw [decide_eq_false h2]
        rfl
      · intro j hj
        show memB (setCell P.mask c) (c.1, j) = true
        rw [memB_setCell (wf_shape_mask hw) hc1 hc2]
        have hj2 : j < c.2 + 1 := hj
        rcases Nat.lt_or_ge j c.2 with hlt2 | hge
        · rw [playable_below hc j hlt2]
          rfl
        · have hjc : j = c.2 := by omega
          rw [hjc, show ((c.1, c.2) : Cell) = c from rfl, decide_eq_true rfl,
            Bool.or_true]

theorem nonLosing_safe {P : Position} (hw : wf P) {c : Cell}
    (hc : c ∈ possibleNonLosing P) : ¬canWinNext (play P c) := by
  rintro ⟨d, hd, hwin⟩
  have hcpl := possibleNonLosing_subset hc
  have hc1 := playable_col_lt hcpl
  have hc2 := playable_row_lt hcpl
  have hwin2 : winCell (oppB P) (setCell P.mask c) d := hwin
  rw [winCell_setCell (wf_shape_mask hw) hc1 hc2] at hwin2
  rcases (mem_playable_play hw hcpl).1 hd with ⟨hdP, hdc⟩ | ⟨hda, _⟩
  · exact hwin2.2 (possibleNonLosing_forcing hc hdP (decide_eq_true hwin2.1))
  · have hbelow := possibleNonLosing_not_below hc
    rw [hda] at hwin2
    rw [oppWin, decide_eq_true hwin2.1] at hbelow
    cases hbelow

theorem playable_nodup (P : Position) : (playableList P).Nodup := by
  apply List.Nodup.filterMap
  · intro a a' b hb hb'
    rcases h2 : lowRow P.mask a with _ | r
    · rw [h2] at hb
      cases hb
    · rcases h3 : lowRow P.mask a' with _ | r2
      · rw [h3] at hb'
        cases hb'
      · rw [h2] at hb
        rw [h3] at hb'
        have h4 : (some (a, r) : Option Cell) = some b := hb
        have h5 : (some (a', r2) : Option Cell) = some b := hb'
        cases h4
        cases h5
        rfl
  · exact List.nodup_range 7

theorem nil_nonLosing_all_lose {P : Position} (hw : wf P)
    (h : possibleNonLosing P = []) {c : Cell} (hc : c ∈ playableList P) :
    canWinNext (play P c) := by
  have hc1 := playable_col_lt hc
  have hc2 := playable_row_lt hc
  have hwc : ∀ f : Cell, oppWin P f = true → f ≠ c →
      (f ∈ playableList P ∨ f = above c) → canWinNext (play P c) := by
    intro f hwin hfc hmem
    have hfwin : winCell (oppB P) P.mask f := of_decide_eq_true hwin
    have hfb := winCell_lt hfwin
    refine ⟨f, ?_, ?_⟩
    · rw [mem_playable_play hw hc]
      rcases hmem with hmem | hmem
      · exact Or.inl ⟨hmem, hfc⟩
      · refine Or.inr ⟨hmem, ?_⟩
        have : f.2 < 6 := hfb.2
        rw [hmem] at this
        exact this
    · show winCell (oppB P) (setCell P.mask c) f
      rw [winCell_setCell (wf_shape_mask hw) hc1 hc2]
      exact ⟨hfwin, hfc⟩
  unfold possibleNonLosing at h
  by_cases h2 : 2 ≤ (forcingList P).length
  · -- two distinct forcing cells; at least one differs from c
    have hnd : (forcingList P).Nodup := List.Nodup.filter _ (playable_nodup P)
    rcases h3 : forcingList P with _ | ⟨f1, rest⟩
    · rw [h3] at h2
      simp at h2
    · rcases h4 : rest with _ | ⟨f2, rest2⟩
      · rw [h3, h4] at h2
        simp at h2
      · rw [h4] at h3
        have hf1 : f1 ∈ forcingList P := by
          rw [h3]
          exact List.mem_cons_self _ _
        have hf2 : f2 ∈ forcingList P := by
          rw [h3]
          exact List.mem_cons_of_mem _ (List.mem_cons_self _ _)
        have hne : f1 ≠ f2 := by
          rw [h3] at hnd
          intro heq
          rcases List.nodup_cons.1 hnd with ⟨hnotin, _⟩
          exact hnotin (heq ▸ List.mem_cons_self f2 rest2)
        obtain ⟨hf1p, hf1w⟩ := mem_forcingList.1 hf1
        obtain ⟨hf2p, hf2w⟩ := mem_forcingList.1 hf2
        by_cases hfc : f1 = c
        · exact hwc f2 hf2w (by rw [← hfc]; exact fun h5 => hne h5.symm)
            (Or.inl hf2p)
        · exact hwc f1 hf1w hfc (Or.inl hf1p)
  · rw [if_neg h2] at h
    by_cases h4 : (forcingList P).length = 1
    · rw [if_pos h4] at h
      obtain ⟨f, hf⟩ := List.length_eq_one.1 h4
      rw [hf, List.filter_eq_nil] at h
      have hfmem : f ∈ forcingList P := by
        rw [hf]
        exact List.mem_singleton.2 rfl
      obtain ⟨hfp, hfw⟩ := mem_forcingList.1 hfmem
      have habove : oppWin P (above f) = true := by
        have h5 := h f (List.mem_singleton.2 rfl)
        rcases h6 : oppWin P (above f) with _ | _
        · rw [h6] at h5
          simp at h5
        · rfl
      by_cases hfc : f = c
      · -- c is the forced cell; the cell above it is an opponent win
        apply hwc (above f) habove
        · rw [hfc]
          intro h5
          have h6 := congrArg Prod.snd h5
          simp only [above] at h6
          omega
        · rw [hfc]
          exact Or.inr rfl
      · exact hwc f hfw hfc (Or.inl hfp)
    · rw [if_neg h4, List.filter_eq_nil] at h
      have h5 := h c hc
      have habove : oppWin P (above c) = true := by
        rcases h6 : oppWin P (above c) with _ | _
        · rw [h6] at h5
          simp at h5
        · rfl
      apply hwc (above c) habove
      · intro h6
        have h7 := congrArg Prod.snd h6
        simp only [above] at h7
        omega
      · exact Or.inr rfl

/-! ### Game value: basic equations and bounds -/

theorem wf_moves_le {P : Position} (hw : wf P) : P.moves ≤ 42 := by
  rw [wf_moves hw]
  exact countB_le_42 (wf_shape_mask hw)

theorem moves_lt_of_playable {P : Position} (hw : wf P)
    (h : playableList P ≠ []) : P.moves < 42 := by
  have h1 : countB P.mask ≠ 42 := fun h2 => h ((playable_nil_iff (wf_shape_mask hw)).2 h2)
  have h2 := countB_le_42 (wf_shape_mask hw)
  rw [wf_moves hw]
  omega

theorem playable_nil_moves {P : Position} (hw : wf P)
    (h : playableList P = []) : P.moves = 42 := by
  rw [wf_moves hw]
  exact (playable_nil_iff (wf_shape_mask hw)).1 h

theorem gvF_succ (f : Nat) (P : Position) : gvF (f + 1) P = gvAux (gvF f) P := rfl

theorem gvF_congr : ∀ {f : Nat} {P : Position}, wf P → ∀ {g : Nat},
    42 - P.moves < f → 42 - P.moves < g → gvF f P = gvF g P := by
  intro f
  induction f with
  | zero => intro P hw g hf; omega
  | succ f ih =>
    intro P hw g hf hg
    cases g with
    | zero => omega
    | succ g =>
      rw [gvF_succ, gvF_succ]
      unfold gvAux
      by_cases hcw : canWinNext P
      · rw [if_pos hcw, if_pos hcw]
      · rw [if_neg hcw, if_neg hcw]
        by_cases hpl : playableList P = []
        · rw [if_pos hpl, if_pos hpl]
        · rw [if_neg hpl, if_neg hpl]
          congr 1
          apply List.map_congr_left
          intro c hc
          have hm := moves_lt_of_playable hw hpl
          have hchild : (play P c).moves = P.moves + 1 := rfl
          congr 1
          exact ih (wf_play hw hc) (by omega) (by omega)

theorem gv_eq {P : Position} (hw : wf P) :
    gv P = if canWinNext P then Int.tdiv (42 + 1 - (P.moves : Int)) 2
      else if playableList P = [] then 0
      else listMax ((playableList P).map fun c => -gv (play P c)) := by
  show gvF 43 P = _
  rw [show (43 : Nat) = 42 + 1 from rfl, gvF_succ]
  unfold gvAux
  by_cases hcw : canWinNext P
  · rw [if_pos hcw, if_pos hcw]
  · rw [if_neg hcw, if_neg hcw]
    by_cases hpl : playableList P = []
    · rw [if_pos hpl, if_pos hpl]
    · rw [if_neg hpl, if_neg hpl]
      have hmap : (playableList P).map (fun c => -gvF 42 (play P c)) =
          (playableList P).map (fun c => -gv (play P c)) := by
        apply List.map_congr_left
        intro c hc
        have hm := moves_lt_of_playable hw hpl
        have h2 : gvF 42 (play P c) = gv (play P c) :=
          gvF_congr (wf_play hw hc)
            (by have h3 : (play P c).moves = P.moves + 1 := rfl; omega)
            (by have h3 : (play P c).moves = P.moves + 1 := rfl; omega)
        rw [h2]
      rw [hmap]

theorem gv_canWin {P : Position} (hw : wf P) (h : canWinNext P) :
    gv P = Int.tdiv (42 + 1 - (P.moves : Int)) 2 := by
  rw [gv_eq hw, if_pos h]

theorem gv_bounds : ∀ {n : Nat} {P : Position}, wf P → 42 - P.moves ≤ n →
    Int.tdiv (-(42 - (P.moves : Int))) 2 ≤ gv P ∧
      gv P ≤ Int.tdiv (42 + 1 - (P.moves : Int)) 2 := by
  intro n
  induction n with
  | zero =>
    intro P hw hn
    have hm42 : P.moves = 42 := by
      have := wf_moves_le hw
      omega
    have hpl : playableList P = [] := by
      rw [playable_nil_iff (wf_shape_mask hw), ← wf_moves hw, hm42]
    have hcw : ¬canWinNext P := by
      rintro ⟨c, hc, _⟩
      rw [hpl] at hc
      cases hc
    rw [gv_eq hw, if_neg hcw, if_pos hpl, hm42]
    constructor
    · show Int.tdiv (-(42 - ((42 : Nat) : Int))) 2 ≤ 0
      decide
    · show (0 : Int) ≤ Int.tdiv (42 + 1 - ((42 : Nat) : Int)) 2
      decide
  | succ n ih =>
    intro P hw hn
    have hm42 : P.moves ≤ 42 := wf_moves_le hw
    have hmi : (0 : Int) ≤ 42 - (P.moves : Int) := by
      have : ((P.moves : Int)) ≤ 42 := by exact_mod_cast hm42
      omega
    have hb1 := tdiv2_bounds (42 - (P.moves : Int)) hmi
    have hb2 := tdiv2_bounds (42 + 1 - (P.moves : Int)) (by omega)
    rw [neg_tdiv2]
    rw [gv_eq hw]
    by_cases hcw : canWinNext P
    · rw [if_pos hcw]
      constructor
      · omega
      · omega
    · rw [if_neg hcw]
      by_cases hpl : playableList P = []
      · rw [if_pos hpl]
        constructor
        · omega
        · omega
      · rw [if_neg hpl]
        have hm := moves_lt_of_playable hw hpl
        -- child bounds
        have hch : ∀ c ∈ playableList P,
            Int.tdiv (-(42 - ((P.moves : Int) + 1))) 2 ≤ gv (play P c) ∧
              gv (play P c) ≤ Int.tdiv (42 + 1 - ((P.moves : Int) + 1)) 2 := by
          intro c hc
          have h2 := ih (wf_play hw hc)
            (by have : (play P c).moves = P.moves + 1 := rfl; omega)
          have h3 : (((play P c).moves : Int)) = (P.moves : Int) + 1 := by
            have : (play P c).moves = P.moves + 1 := rfl
            rw [this]
            push_cast
            ring
          rw [h3] at h2
          exact h2
        have hb3 := tdiv2_bounds (42 - ((P.moves : Int) + 1)) (by omega)
        have hb4 := tdiv2_bounds (42 + 1 - ((P.moves : Int) + 1)) (by omega)
        obtain ⟨c0, hc0⟩ : ∃ c, c ∈ playableList P := by
          rcases h2 : playableList P with _ | ⟨c, rest⟩
          · exact absurd h2 hpl
          · exact ⟨c, h2 ▸ List.mem_cons_self c rest⟩
        constructor
        · have h4 : -gv (play P c0) ≤
              listMax ((playableList P).map fun c => -gv (play P c)) :=
            le_listMax (List.mem_map_of_mem (fun c => -gv (play P c)) hc0)
          have h5 := (hch c0 hc0).2
          rw [neg_tdiv2] at *
          omega
        · apply listMax_le
          · simp only [ne_eq, List.map_eq_nil_iff]
            exact hpl
          · intro a ha
            rw [List.mem_map] at ha
            obtain ⟨c, hc, rfl⟩ := ha
            have h5 := (hch c hc).1
            rw [neg_tdiv2] at *
            omega

theorem tdiv2_nonneg {x : Int} (h : 0 ≤ x) : 0 ≤ x.tdiv 2 := by
  have := tdiv2_bounds x h
  omega

theorem tdiv2_mono {x y : Int} (h : x ≤ y) : x.tdiv 2 ≤ y.tdiv 2 := by
  rcases le_or_lt 0 x with hx | hx
  · have h1 := tdiv2_bounds x hx
    have h2 := tdiv2_bounds y (by omega)
    omega
  · rcases le_or_lt 0 y with hy | hy
    · have h1 := tdiv2_bounds (-x) (by omega)
      have h2 := tdiv2_bounds y hy
      have h3 : x.tdiv 2 = -((-x).tdiv 2) := by
        rw [← neg_tdiv2, neg_neg]
      omega
    · have h1 := tdiv2_bounds (-x) (by omega)
      have h2 := tdiv2_bounds (-y) (by omega)
      have h3 : x.tdiv 2 = -((-x).tdiv 2) := by rw [← neg_tdiv2, neg_neg]
      have h4 : y.tdiv 2 = -((-y).tdiv 2) := by rw [← neg_tdiv2, neg_neg]
      omega

theorem moves_cast_play (P : Position) (c : Cell) :
    (((play P c).moves : Int)) = (P.moves : Int) + 1 := by
  have h : (play P c).moves = P.moves + 1 := rfl
  rw [h]
  push_cast
  ring

theorem exists_mem_ne_nil {α : Type} {l : List α} (h : l ≠ []) : ∃ a, a ∈ l := by
  rcases h2 : l with _ | ⟨a, rest⟩
  · exact absurd h2 h
  · exact ⟨a, h2 ▸ List.mem_cons_self a rest⟩

theorem gv_child_bounds {P : Position} (hw : wf P) {c : Cell}
    (hc : c ∈ playableList P) :
    Int.tdiv (-(42 - 1 - (P.moves : Int))) 2 ≤ gv (play P c) ∧
      gv (play P c) ≤ Int.tdiv (42 - (P.moves : Int)) 2 := by
  have h2 := gv_bounds (n := 42) (wf_play hw hc) (by omega)
  rw [moves_cast_play] at h2
  have e1 : (-(42 - ((P.moves : Int) + 1))) = -(42 - 1 - (P.moves : Int)) := by ring
  have e2 : (42 + 1 - ((P.moves : Int) + 1)) = 42 - (P.moves : Int) := by ring
  rw [e1, e2] at h2
  exact h2

theorem gv_upper_noWin {P : Position} (hw : wf P) (h : ¬canWinNext P) :
    gv P ≤ Int.tdiv (42 - 1 - (P.moves : Int)) 2 := by
  have hm42 := wf_moves_le hw
  rw [gv_eq hw, if_neg h]
  by_cases hpl : playableList P = []
  · rw [if_pos hpl]
    have hm : P.moves = 42 := playable_nil_moves hw hpl
    rw [hm]
    decide
  · rw [if_neg hpl]
    apply listMax_le
    · simp only [ne_eq, List.map_eq_nil_iff]
      exact hpl
    · intro a ha
      rw [List.mem_map] at ha
      obtain ⟨c, hc, rfl⟩ := ha
      have h5 := (gv_child_bounds hw hc).1
      rw [neg_tdiv2] at h5
      omega

theorem gv_ge_neg_child {P : Position} (hw : wf P) (hnw : ¬canWinNext P)
    {c : Cell} (hc : c ∈ playableList P) : -gv (play P c) ≤ gv P := by
  have hpl : playableList P ≠ [] := fun h => by rw [h] at hc; cases hc
  rw [gv_eq hw, if_neg hnw, if_neg hpl]
  exact le_listMax (List.mem_map_of_mem _ hc)

theorem gv_lower_nonLosing {P : Position} (hw : wf P) (hnw : ¬canWinNext P)
    (hne : possibleNonLosing P ≠ []) :
    Int.tdiv (-(42 - 2 - (P.moves : Int))) 2 ≤ gv P := by
  obtain ⟨c, hcnl⟩ := exists_mem_ne_nil hne
  have hc := possibleNonLosing_subset hcnl
  have hsafe := nonLosing_safe hw hcnl
  have hup := gv_upper_noWin (wf_play hw hc) hsafe
  rw [moves_cast_play] at hup
  have e1 : (42 - 1 - ((P.moves : Int) + 1)) = 42 - 2 - (P.moves : Int) := by ring
  rw [e1] at hup
  have hge := gv_ge_neg_child hw hnw hc
  rw [neg_tdiv2]
  omega

theorem gv_nonLosing_nil {P : Position} (hw : wf P) (hnw : ¬canWinNext P)
    (h : possibleNonLosing P = []) :
    gv P = Int.tdiv (-(42 - (P.moves : Int))) 2 := by
  by_cases hpl : playableList P = []
  · have hm := playable_nil_moves hw hpl
    rw [gv_eq hw, if_neg hnw, if_pos hpl, hm]
    decide
  · rw [gv_eq hw, if_neg hnw, if_neg hpl]
    have hval : ∀ c ∈ playableList P,
        -gv (play P c) = Int.tdiv (-(42 - (P.moves : Int))) 2 := by
      intro c hc
      have hwin := nil_nonLosing_all_lose hw h hc
      have hgc := gv_canWin (wf_play hw hc) hwin
      rw [moves_cast_play] at hgc
      have e : (42 + 1 - ((P.moves : Int) + 1)) = 42 - (P.moves : Int) := by ring
      rw [e] at hgc
      rw [hgc, neg_tdiv2]
    obtain ⟨c0, hc0⟩ := exists_mem_ne_nil hpl
    apply le_antisymm
    · apply listMax_le
      · simp only [ne_eq, List.map_eq_nil_iff]
        exact hpl
      · intro a ha
        rw [List.mem_map] at ha
        obtain ⟨c, hc, rfl⟩ := ha
        rw [hval c hc]
    · have h2 : -gv (play P c0) ≤
          listMax ((playableList P).map fun c => -gv (play P c)) :=
        le_listMax (List.mem_map_of_mem _ hc0)
      rw [hval c0 hc0] at h2
      exact h2

theorem gv_zero_of_41 {P : Position} (hw : wf P) (hnw : ¬canWinNext P)
    (hm : 41 ≤ P.moves) : gv P = 0 := by
  by_cases hpl : playableList P = []
  · rw [gv_eq hw, if_neg hnw, if_pos hpl]
  · have hm41 : P.moves = 41 := by
      have := moves_lt_of_playable hw hpl
      omega
    rw [gv_eq hw, if_neg hnw, if_neg hpl]
    have hval : ∀ c ∈ playableList P, -gv (play P c) = 0 := by
      intro c hc
      have hw2 := wf_play hw hc
      have hplc : playableList (play P c) = [] := by
        rw [playable_nil_iff (wf_shape_mask hw2), ← wf_moves hw2]
        show P.moves + 1 = 42
        omega
      have hcw2 : ¬canWinNext (play P c) := by
        rintro ⟨d, hd, _⟩
        rw [hplc] at hd
        cases hd
      rw [gv_eq hw2, if_neg hcw2, if_pos hplc]
      ring
    obtain ⟨c0, hc0⟩ := exists_mem_ne_nil hpl
    apply le_antisymm
    · apply listMax_le
      · simp only [ne_eq, List.map_eq_nil_iff]
        exact hpl
      · intro a ha
        rw [List.mem_map] at ha
        obtain ⟨c, hc, rfl⟩ := ha
        rw [hval c hc]
    · have h2 : -gv (play P c0) ≤
          listMax ((playableList P).map fun c => -gv (play P c)) :=
        le_listMax (List.mem_map_of_mem _ hc0)
      rw [hval c0 hc0] at h2
      exact h2

theorem win_next_of_oppWin {P : Position} (hw : wf P) {c f : Cell}
    (hc : c ∈ playableList P) (hwin : oppWin P f = true) (hfc : f ≠ c)
    (hmem : f ∈ playableList P ∨ f = above c) : canWinNext (play P c) := by
  have hc1 := playable_col_lt hc
  have hc2 := playable_row_lt hc
  have hfwin : winCell (oppB P) P.mask f := of_decide_eq_true hwin
  have hfb := winCell_lt hfwin
  refine ⟨f, ?_, ?_⟩
  · rw [mem_playable_play hw hc]
    rcases hmem with hmem | hmem
    · exact Or.inl ⟨hmem, hfc⟩
    · refine Or.inr ⟨hmem, ?_⟩
      have h3 : f.2 < 6 := hfb.2
      rw [hmem] at h3
      exact h3
  · show winCell (oppB P) (setCell P.mask c) f
    rw [winCell_setCell (wf_shape_mask hw) hc1 hc2]
    exact ⟨hfwin, hfc⟩

theorem not_nonLosing_loses {P : Position} (hw : wf P) {c : Cell}
    (hc : c ∈ playableList P) (hnot : c ∉ possibleNonLosing P)
    (hne : possibleNonLosing P ≠ []) : canWinNext (play P c) := by
  unfold possibleNonLosing at hnot hne
  by_cases h2 : 2 ≤ (forcingList P).length
  · rw [if_pos h2] at hne
    exact absurd rfl hne
  · rw [if_neg h2] at hnot hne
    by_cases h4 : (forcingList P).length = 1
    · rw [if_pos h4] at hnot
      obtain ⟨f, hf⟩ := List.length_eq_one.1 h4
      have hfmem : f ∈ forcingList P := by
        rw [hf]
        exact List.mem_singleton.2 rfl
      obtain ⟨hfp, hfw⟩ := mem_forcingList.1 hfmem
      by_cases hfc : f = c
      · -- c is the forced cell but was filtered out: above c is an opponent win
        subst hfc
        rw [hf] at hnot
        have h5 : oppWin P (above f) = true := by
          rcases h6 : oppWin P (above f) with _ | _
          · exfalso
            apply hnot
            rw [List.mem_filter]
            exact ⟨List.mem_singleton.2 rfl, by rw [h6]; rfl⟩
          · rfl
        apply win_next_of_oppWin hw hfp h5
        · intro h7
          have h8 := congrArg Prod.snd h7
          simp only [above] at h8
          omega
        · exact Or.inr rfl
      · exact win_next_of_oppWin hw hc hfw hfc (Or.inl hfp)
    · rw [if_neg h4] at hnot
      have h5 : oppWin P (above c) = true := by
        rcases h6 : oppWin P (above c) with _ | _
        · exfalso
          apply hnot
          rw [List.mem_filter]
          exact ⟨hc, by rw [h6]; rfl⟩
        · rfl
      apply win_next_of_oppWin hw hc h5
      · intro h7
        have h8 := congrArg Prod.snd h7
        simp only [above] at h8
        omega
      · exact Or.inr rfl

theorem gv_draw {P : Position} (hw : wf P) (hnw : ¬canWinNext P)
    (hne : possibleNonLosing P ≠ []) (hm : 40 ≤ P.moves) : gv P = 0 := by
  rcases Nat.lt_or_ge P.moves 41 with h41 | h41
  · -- moves = 40
    have hm40 : P.moves = 40 := by omega
    obtain ⟨c0, hc0⟩ := exists_mem_ne_nil hne
    have hc0p := possibleNonLosing_subset hc0
    have hpl : playableList P ≠ [] := fun h => by rw [h] at hc0p; cases hc0p
    rw [gv_eq hw, if_neg hnw, if_neg hpl]
    have hval0 : ∀ c ∈ possibleNonLosing P, gv (play P c) = 0 := by
      intro c hcn
      exact gv_zero_of_41 (wf_play hw (possibleNonLosing_subset hcn))
        (nonLosing_safe hw hcn) (by show 41 ≤ P.moves + 1; omega)
    apply le_antisymm
    · apply listMax_le
      · simp only [ne_eq, List.map_eq_nil_iff]
        exact hpl
      · intro a ha
        rw [List.mem_map] at ha
        obtain ⟨c, hc, rfl⟩ := ha
        by_cases hin : c ∈ possibleNonLosing P
        · rw [hval0 c hin]
          simp
        · have hwin := not_nonLosing_loses hw hc hin hne
          have hgc := gv_canWin (wf_play hw hc) hwin
          rw [moves_cast_play, hm40] at hgc
          have e : (42 + 1 - ((40 : Nat) : Int) - 1) = 2 := by norm_num
          rw [show (42 + 1 - (((40 : Nat) : Int) + 1)) = 2 by norm_num] at hgc
          rw [hgc]
          decide
    · have h2 : -gv (play P c0) ≤
          listMax ((playableList P).map fun c => -gv (play P c)) :=
        le_listMax (List.mem_map_of_mem _ hc0p)
      rw [hval0 c0 hc0] at h2
      simpa using h2
  · exact gv_zero_of_41 hw hnw h41

theorem gv_eq_max_nonLosing {P : Position} (hw : wf P) (hnw : ¬canWinNext P)
    (hne : possibleNonLosing P ≠ []) :
    gv P = listMax ((possibleNonLosing P).map fun c => -gv (play P c)) := by
  obtain ⟨c0, hc0⟩ := exists_mem_ne_nil hne
  have hc0p := possibleNonLosing_subset hc0
  have hpl : playableList P ≠ [] := fun h => by rw [h] at hc0p; cases hc0p
  have hnemap : (possibleNonLosing P).map (fun c => -gv (play P c)) ≠ [] := by
    simp only [ne_eq, List.map_eq_nil_iff]
    exact hne
  rw [gv_eq hw, if_neg hnw, if_neg hpl]
  apply le_antisymm
  · apply listMax_le
    · simp only [ne_eq, List.map_eq_nil_iff]
      exact hpl
    · intro a ha
      rw [List.mem_map] at ha
      obtain ⟨c, hc, rfl⟩ := ha
      by_cases hin : c ∈ possibleNonLosing P
      · exact le_listMax (List.mem_map_of_mem _ hin)
      · -- a losing move is no better than the non-losing move c0
        have hwin := not_nonLosing_loses hw hc hin hne
        have hgc := gv_canWin (wf_play hw hc) hwin
        rw [moves_cast_play] at hgc
        rw [show (42 + 1 - ((P.moves : Int) + 1)) = 42 - (P.moves : Int) by ring]
          at hgc
        have hup : gv (play P c0) ≤ Int.tdiv (42 - 2 - (P.moves : Int)) 2 := by
          have h3 := gv_upper_noWin (wf_play hw hc0p) (nonLosing_safe hw hc0)
          rw [moves_cast_play] at h3
          rw [show (42 - 1 - ((P.moves : Int) + 1)) = 42 - 2 - (P.moves : Int)
            by ring] at h3
          exact h3
        have hmono : Int.tdiv (42 - 2 - (P.moves : Int)) 2 ≤
            Int.tdiv (42 - (P.moves : Int)) 2 := tdiv2_mono (by omega)
        have h6 : -gv (play P c0) ≤
            listMax ((possibleNonLosing P).map fun c => -gv (play P c)) :=
          le_listMax (List.mem_map_of_mem _ hc0)
        rw [hgc]
        omega
  · apply listMax_le hnemap
    intro a ha
    rw [List.mem_map] at ha
    obtain ⟨c, hc, rfl⟩ := ha
    exact le_listMax (List.mem_map_of_mem _ (possibleNonLosing_subset hc))

/-! ### Key injectivity -/

/-- A column is packed: a false cell has only false cells above it. -/
def packedCol : List Bool → Prop
  | [] => True
  | b :: rest => packedCol rest ∧ (b = false → ∀ x ∈ rest, x = false)

/-- Cellwise inclusion of two columns of the same height. -/
def subCol : List Bool → List Bool → Prop
  | [], _ => True
  | _ :: _, [] => True
  | a :: c, b :: m => (a = true → b = true) ∧ subCol c m

theorem bitsVal_lt (l : List Bool) : bitsVal l < 2 ^ l.length := by
  induction l with
  | nil => simp [bitsVal]
  | cons b rest ih =>
    show (if b then 1 else 0) + 2 * bitsVal rest < 2 ^ (rest.length + 1)
    rw [pow_succ]
    rcases b with _ | _ <;> simp <;> omega

theorem bitsVal_eq_zero {l : List Bool} (h : ∀ x ∈ l, x = false) :
    bitsVal l = 0 := by
  induction l with
  | nil => rfl
  | cons b rest ih =>
    show (if b then 1 else 0) + 2 * bitsVal rest = 0
    rw [h b (List.mem_cons_self b rest), ih (fun x hx => h x (List.mem_cons_of_mem b hx))]
    rfl

theorem bitsVal_zero_all_false {l : List Bool} (h : bitsVal l = 0) :
    ∀ x ∈ l, x = false := by
  induction l with
  | nil => intro x hx; cases hx
  | cons b rest ih =>
    have h2 : (if b then 1 else 0) + 2 * bitsVal rest = 0 := h
    intro x hx
    rcases List.mem_cons.1 hx with rfl | hx2
    · rcases x with _ | _
      · rfl
      · simp at h2
    · exact ih (by omega) x hx2

theorem all_false_ext {l1 l2 : List Bool} (h1 : ∀ x ∈ l1, x = false)
    (h2 : ∀ x ∈ l2, x = false) (hlen : l1.length = l2.length) : l1 = l2 := by
  induction l1 generalizing l2 with
  | nil =>
    cases l2 with
    | nil => rfl
    | cons b rest => simp at hlen
  | cons a rest ih =>
    cases l2 with
    | nil => simp at hlen
    | cons b rest2 =>
      rw [h1 a (List.mem_cons_self _ _), h2 b (List.mem_cons_self _ _),
        ih (fun x hx => h1 x (List.mem_cons_of_mem a hx))
          (fun x hx => h2 x (List.mem_cons_of_mem b hx)) (by simpa using hlen)]

theorem subCol_all_false {c m : List Bool} (hsub : subCol c m)
    (hm : ∀ x ∈ m, x = false) (hlen : c.length = m.length) :
    ∀ x ∈ c, x = false := by
  induction c generalizing m with
  | nil => intro x hx; cases hx
  | cons a rest ih =>
    cases m with
    | nil => simp at hlen
    | cons b mrest =>
      obtain ⟨hab, hsub2⟩ := hsub
      intro x hx
      rcases List.mem_cons.1 hx with rfl | hx2
      · rcases x with _ | _
        · rfl
        · exact absurd (hm b (List.mem_cons_self _ _))
            (by rw [hab rfl]; exact fun h => Bool.noConfusion h)
      · exact ih hsub2 (fun x hx => hm x (List.mem_cons_of_mem b hx))
          (by simpa using hlen) x hx2

theorem colInj : ∀ (m1 c1 m2 c2 : List Bool),
    packedCol m1 → packedCol m2 → subCol c1 m1 → subCol c2 m2 →
    c1.length = m1.length → c2.length = m2.length → m1.length = m2.length →
    bitsVal c1 + bitsVal m1 = bitsVal c2 + bitsVal m2 → c1 = c2 ∧ m1 = m2 := by
  intro m1
  induction m1 with
  | nil =>
    intro c1 m2 c2 _ _ _ _ hl1 hl2 hl3 _
    cases m2 with
    | nil =>
      cases c1 with
      | nil =>
        cases c2 with
        | nil => exact ⟨rfl, rfl⟩
        | cons _ _ => simp at hl2
      | cons _ _ => simp at hl1
    | cons _ _ => simp at hl3
  | cons b1 m1r ih =>
    intro c1 m2 c2 hp1 hp2 hs1 hs2 hl1 hl2 hl3 heq
    cases m2 with
    | nil => simp at hl3
    | cons b2 m2r =>
      cases c1 with
      | nil => simp at hl1
      | cons a1 c1r =>
        cases c2 with
        | nil => simp at hl2
        | cons a2 c2r =>
          obtain ⟨hp1r, hp1h⟩ := hp1
          obtain ⟨hp2r, hp2h⟩ := hp2
          obtain ⟨hs1h, hs1r⟩ := hs1
          obtain ⟨hs2h, hs2r⟩ := hs2
          have heq2 : (if a1 then 1 else 0) + 2 * bitsVal c1r +
              ((if b1 then 1 else 0) + 2 * bitsVal m1r) =
              (if a2 then 1 else 0) + 2 * bitsVal c2r +
              ((if b2 then 1 else 0) + 2 * bitsVal m2r) := heq
          rcases hb1 : b1 with _ | _
          · -- column 1 is empty from here up
            have hm1r : ∀ x ∈ m1r, x = false := hp1h hb1
            have hc1 : a1 = false := by
              rcases ha1 : a1 with _ | _
              · rfl
              · rw [hs1h ha1] at hb1
                cases hb1
            have hz1 : bitsVal m1r = 0 := bitsVal_eq_zero hm1r
            have hz2 : bitsVal c1r = 0 :=
              bitsVal_eq_zero (subCol_all_false hs1r hm1r (by simpa using hl1))
            rw [hb1, hc1, hz1, hz2] at heq2
            norm_num at heq2
            -- the whole right side is 0
            have ha2 : a2 = false := by
              rcases ha2 : a2 with _ | _
              · rfl
              · rw [ha2] at heq2
                simp at heq2
                omega
            have hb2f : b2 = false := by
              rcases hb2 : b2 with _ | _
              · rfl
              · rw [ha2, hb2] at heq2
                simp at heq2
                omega
            rw [ha2, hb2f] at heq2
            norm_num at heq2
            have hz3 : bitsVal c2r = 0 := by omega
            have hz4 : bitsVal m2r = 0 := by omega
            have hm2r := bitsVal_zero_all_false hz4
            have hc2r := bitsVal_zero_all_false hz3
            constructor
            · apply all_false_ext
              · intro x hx
                rcases List.mem_cons.1 hx with rfl | hx2
                · exact hc1
                · exact bitsVal_zero_all_false hz2 x hx2
              · intro x hx
                rcases List.mem_cons.1 hx with rfl | hx2
                · exact ha2
                · exact hc2r x hx2
              · simp at hl1 hl2 hl3 ⊢
                omega
            · apply all_false_ext
              · intro x hx
                rcases List.mem_cons.1 hx with rfl | hx2
                · simp [hb1]
                · exact hm1r x hx2
              · intro x hx
                rcases List.mem_cons.1 hx with rfl | hx2
                · exact hb2f
                · exact hm2r x hx2
              · simpa using hl3
          · -- column 1 has an occupied bottom cell
            rcases hb2 : b2 with _ | _
            · -- symmetric zero case for column 2 contradicts
              have hm2r : ∀ x ∈ m2r, x = false := hp2h hb2
              have ha2 : a2 = false := by
                rcases ha2 : a2 with _ | _
                · rfl
                · rw [hs2h ha2] at hb2
                  cases hb2
              have hz1 : bitsVal m2r = 0 := bitsVal_eq_zero hm2r
              have hz2 : bitsVal c2r = 0 :=
                bitsVal_eq_zero (subCol_all_false hs2r hm2r (by simpa using hl2))
              rw [hb1, hb2, ha2, hz1, hz2] at heq2
              rcases a1 with _ | _ <;> simp at heq2 <;> omega
            · rw [hb1, hb2] at heq2
              have hpar : a1 = a2 := by
                rcases a1 with _ | _ <;> rcases a2 with _ | _ <;>
                  simp at heq2 <;> first | rfl | omega
              have hrest : bitsVal c1r + bitsVal m1r = bitsVal c2r + bitsVal m2r := by
                rw [hpar] at heq2
                rcases a2 with _ | _ <;> simp at heq2 <;> omega
              obtain ⟨he1, he2⟩ := ih c1r m2r c2r hp1r hp2r hs1r hs2r
                (by simpa using hl1) (by simpa using hl2) (by simpa using hl3) hrest
              exact ⟨by rw [hpar, he1], by rw [he2]⟩

theorem colsValPair_lt : ∀ (cu m : List (List Bool)),
    (∀ col ∈ cu, col.length ≤ 6) → (∀ col ∈ m, col.length ≤ 6) →
    cu.length = m.length →
    colsVal cu + colsVal m < 128 ^ m.length := by
  intro cu
  induction cu with
  | nil =>
    intro m _ _ hlen
    cases m with
    | nil => decide
    | cons _ _ => simp at hlen
  | cons c cur ih =>
    intro m hcu hm hlen
    cases m with
    | nil => simp at hlen
    | cons mc mr =>
      have h1 : bitsVal c < 64 := by
        have := bitsVal_lt c
        have h2 := hcu c (List.mem_cons_self _ _)
        calc bitsVal c < 2 ^ c.length := this
        _ ≤ 2 ^ 6 := Nat.pow_le_pow_right (by omega) h2
        _ = 64 := rfl
      have h2 : bitsVal mc < 64 := by
        have := bitsVal_lt mc
        have h3 := hm mc (List.mem_cons_self _ _)
        calc bitsVal mc < 2 ^ mc.length := this
        _ ≤ 2 ^ 6 := Nat.pow_le_pow_right (by omega) h3
        _ = 64 := rfl
      have h3 := ih mr (fun col hc => hcu col (List.mem_cons_of_mem c hc))
        (fun col hc => hm col (List.mem_cons_of_mem mc hc)) (by simpa using hlen)
      show bitsVal c + 128 * colsVal cur + (bitsVal mc + 128 * colsVal mr) <
        128 ^ (mr.length + 1)
      rw [pow_succ]
      have h4 : colsVal cur + colsVal mr ≤ 128 ^ mr.length - 1 := by omega
      have h5 : 1 ≤ 128 ^ mr.length := Nat.one_le_pow _ _ (by omega)
      calc bitsVal c + 128 * colsVal cur + (bitsVal mc + 128 * colsVal mr)
          = (bitsVal c + bitsVal mc) + 128 * (colsVal cur + colsVal mr) := by ring
      _ ≤ 127 + 128 * (128 ^ mr.length - 1) := by omega
      _ < 128 ^ mr.length * 128 := by
          rw [Nat.mul_sub_one]
          omega

theorem colsVal_inj : ∀ (m1 cu1 m2 cu2 : List (List Bool)),
    cu1.length = m1.length → cu2.length = m2.length → m1.length = m2.length →
    (∀ col ∈ cu1, col.length ≤ 6) → (∀ col ∈ m1, col.length ≤ 6) →
    (∀ col ∈ cu2, col.length ≤ 6) → (∀ col ∈ m2, col.length ≤ 6) →
    (∀ i, packedCol (m1.getD i []) ∧ packedCol (m2.getD i []) ∧
      subCol (cu1.getD i []) (m1.getD i []) ∧ subCol (cu2.getD i []) (m2.getD i []) ∧
      (cu1.getD i []).length = (m1.getD i []).length ∧
      (cu2.getD i []).length = (m2.getD i []).length ∧
      (m1.getD i []).length = (m2.getD i []).length) →
    colsVal cu1 + colsVal m1 = colsVal cu2 + colsVal m2 →
    cu1 = cu2 ∧ m1 = m2 := by
  intro m1
  induction m1 with
  | nil =>
    intro cu1 m2 cu2 hl1 hl2 hl3 _ _ _ _ _ _
    cases m2 with
    | nil =>
      cases cu1 with
      | nil =>
        cases cu2 with
        | nil => exact ⟨rfl, rfl⟩
        | cons _ _ => simp at hl2
      | cons _ _ => simp at hl1
    | cons _ _ => simp at hl3
  | cons mh m1r ih =>
    intro cu1 m2 cu2 hl1 hl2 hl3 hb1 hb2 hb3 hb4 hcond heq
    cases m2 with
    | nil => simp at hl3
    | cons mh2 m2r =>
      cases cu1 with
      | nil => simp at hl1
      | cons ch1 cu1r =>
        cases cu2 with
        | nil => simp at hl2
        | cons ch2 cu2r =>
          have hc0 := hcond 0
          simp only [List.getD_cons_zero] at hc0
          obtain ⟨hp1, hp2, hs1, hs2, he1, he2, he3⟩ := hc0
          have hd1 : bitsVal ch1 + bitsVal mh < 128 := by
            have u1 := bitsVal_lt ch1
            have u2 := bitsVal_lt mh
            have v1 := hb1 ch1 (List.mem_cons_self _ _)
            have v2 := hb2 mh (List.mem_cons_self _ _)
            have w1 : 2 ^ ch1.length ≤ 64 := by
              calc 2 ^ ch1.length ≤ 2 ^ 6 := Nat.pow_le_pow_right (by omega) v1
              _ = 64 := rfl
            have w2 : 2 ^ mh.length ≤ 64 := by
              calc 2 ^ mh.length ≤ 2 ^ 6 := Nat.pow_le_pow_right (by omega) v2
              _ = 64 := rfl
            omega
          have hd2 : bitsVal ch2 + bitsVal mh2 < 128 := by
            have u1 := bitsVal_lt ch2
            have u2 := bitsVal_lt mh2
            have v1 := hb3 ch2 (List.mem_cons_self _ _)
            have v2 := hb4 mh2 (List.mem_cons_self _ _)
            have w1 : 2 ^ ch2.length ≤ 64 := by
              calc 2 ^ ch2.length ≤ 2 ^ 6 := Nat.pow_le_pow_right (by omega) v1
              _ = 64 := rfl
            have w2 : 2 ^ mh2.length ≤ 64 := by
              calc 2 ^ mh2.length ≤ 2 ^ 6 := Nat.pow_le_pow_right (by omega) v2
              _ = 64 := rfl
            omega
          have heq2 : (bitsVal ch1 + bitsVal mh) +
              128 * (colsVal cu1r + colsVal m1r) =
              (bitsVal ch2 + bitsVal mh2) +
              128 * (colsVal cu2r + colsVal m2r) := by
            have e1 : colsVal (ch1 :: cu1r) = bitsVal ch1 + 128 * colsVal cu1r := rfl
            have e2 : colsVal (mh :: m1r) = bitsVal mh + 128 * colsVal m1r := rfl
            have e3 : colsVal (ch2 :: cu2r) = bitsVal ch2 + 128 * colsVal cu2r := rfl
            have e4 : colsVal (mh2 :: m2r) = bitsVal mh2 + 128 * colsVal m2r := rfl
            rw [e1, e2, e3, e4] at heq
            omega
          have hhead : bitsVal ch1 + bitsVal mh = bitsVal ch2 + bitsVal mh2 := by
            omega
          have hrest : colsVal cu1r + colsVal m1r = colsVal cu2r + colsVal m2r := by
            omega
          obtain ⟨hq1, hq2⟩ := colInj mh ch1 mh2 ch2 hp1 hp2 hs1 hs2 he1 he2 he3 hhead
          obtain ⟨hr1, hr2⟩ := ih cu1r m2r cu2r (by simpa using hl1)
            (by simpa using hl2) (by simpa using hl3)
            (fun col hc => hb1 col (List.mem_cons_of_mem _ hc))
            (fun col hc => hb2 col (List.mem_cons_of_mem _ hc))
            (fun col hc => hb3 col (List.mem_cons_of_mem _ hc))
            (fun col hc => hb4 col (List.mem_cons_of_mem _ hc))
            (fun i => by
              have := hcond (i + 1)
              simpa using this) hrest
          exact ⟨by rw [hq1, hr1], by rw [hq2, hr2]⟩

theorem chain_down {l : List Bool}
    (h : ∀ r, l.getD (r + 1) false = true → l.getD r false = true) :
    ∀ j, l.getD j false = true → ∀ i, i ≤ j → l.getD i false = true := by
  intro j
  induction j with
  | zero =>
    intro hj i hi
    have : i = 0 := by omega
    rw [this]
    exact hj
  | succ j ih =>
    intro hj i hi
    rcases Nat.lt_or_ge i (j + 1) with h2 | h2
    · exact ih (h j hj) i (by omega)
    · have : i = j + 1 := by omega
      rw [this]
      exact hj

theorem packedCol_of_chain : ∀ {l : List Bool},
    (∀ r, l.getD (r + 1) false = true → l.getD r false = true) → packedCol l := by
  intro l
  induction l with
  | nil => intro _; trivial
  | cons b rest ih =>
    intro h
    refine ⟨ih (fun r hr => h (r + 1) hr), ?_⟩
    intro hb x hx
    by_contra hxt
    have hxT : x = true := by
      rcases x with _ | _
      · exact absurd rfl hxt
      · rfl
    rw [List.mem_iff_getElem] at hx
    obtain ⟨j, hj, hget⟩ := hx
    have hjD : rest.getD j false = true := by
      rw [List.getD_eq_getElem?_getD, List.getElem?_eq_getElem hj]
      rw [hget, hxT]
      rfl
    have h2 : (b :: rest).getD (j + 1) false = true := by
      rw [List.getD_cons_succ]
      exact hjD
    have h3 := chain_down h (j + 1) h2 0 (by omega)
    rw [List.getD_cons_zero] at h3
    rw [hb] at h3
    cases h3

theorem subCol_of_pointwise : ∀ {c m : List Bool},
    (∀ r, c.getD r false = true → m.getD r false = true) → subCol c m := by
  intro c
  induction c with
  | nil => intro m _; trivial
  | cons a c2 ih =>
    intro m h
    cases m with
    | nil => trivial
    | cons b m2 =>
      refine ⟨?_, ih fun r hr => ?_⟩
      · intro ha
        have := h 0
        rw [List.getD_cons_zero, List.getD_cons_zero] at this
        exact this ha
      · have := h (r + 1)
        rw [List.getD_cons_succ, List.getD_cons_succ] at this
        exact this hr

theorem packedCol_of_wf {P : Position} (hw : wf P) (i : Nat) :
    packedCol (P.mask.getD i []) := by
  apply packedCol_of_chain
  intro r h
  exact wf_closed_mem hw (c := i) (r := r) h

theorem subCol_of_wf {P : Position} (hw : wf P) (i : Nat) :
    subCol (P.cur.getD i []) (P.mask.getD i []) :=
  subCol_of_pointwise fun r h => wf_sub_mem hw (d := (i, r)) h

theorem key_lt {P : Position} (hw : wf P) : key P < 2 ^ 49 := by
  have h := colsValPair_lt P.cur P.mask
    (fun col hc => le_of_eq ((wf_shape_cur hw).2 col hc))
    (fun col hc => le_of_eq ((wf_shape_mask hw).2 col hc))
    (by rw [(wf_shape_cur hw).1, (wf_shape_mask hw).1])
  rw [(wf_shape_mask hw).1] at h
  have h2 : (128 : Nat) ^ 7 = 2 ^ 49 := by norm_num
  rw [h2] at h
  exact h

theorem key_inj {P Q : Position} (hP : wf P) (hQ : wf Q) (h : key P = key Q) :
    P = Q := by
  have hcols := colsVal_inj P.mask P.cur Q.mask Q.cur
    (by rw [(wf_shape_cur hP).1, (wf_shape_mask hP).1])
    (by rw [(wf_shape_cur hQ).1, (wf_shape_mask hQ).1])
    (by rw [(wf_shape_mask hP).1, (wf_shape_mask hQ).1])
    (fun col hc => le_of_eq ((wf_shape_cur hP).2 col hc))
    (fun col hc => le_of_eq ((wf_shape_mask hP).2 col hc))
    (fun col hc => le_of_eq ((wf_shape_cur hQ).2 col hc))
    (fun col hc => le_of_eq ((wf_shape_mask hQ).2 col hc))
    (fun i => by
      refine ⟨packedCol_of_wf hP i, packedCol_of_wf hQ i, subCol_of_wf hP i,
        subCol_of_wf hQ i, ?_, ?_, ?_⟩
      all_goals by_cases hi : i < 7
      · rw [getD_col_length (wf_shape_cur hP) hi, getD_col_length (wf_shape_mask hP) hi]
      · rw [getD_out (wf_shape_cur hP).1 (by omega), getD_out (wf_shape_mask hP).1 (by omega)]
      · rw [getD_col_length (wf_shape_cur hQ) hi, getD_col_length (wf_shape_mask hQ) hi]
      · rw [getD_out (wf_shape_cur hQ).1 (by omega), getD_out (wf_shape_mask hQ).1 (by omega)]
      · rw [getD_col_length (wf_shape_mask hP) hi, getD_col_length (wf_shape_mask hQ) hi]
      · rw [getD_out (wf_shape_mask hP).1 (by omega), getD_out (wf_shape_mask hQ).1 (by omega)])
    h
  obtain ⟨hcur, hmask⟩ := hcols
  have hmov : P.moves = Q.moves := by
    rw [wf_moves hP, wf_moves hQ, hmask]
  cases P with
  | mk c1 m1 v1 =>
    cases Q with
    | mk c2 m2 v2 =>
      simp only at hcur hmask hmov
      rw [hcur, hmask, hmov]

/-! ### Transposition table -/

theorem get_reset (k : Nat) : TT.get TT.reset k = 0 := by
  show (if (0 : Nat) = k % 2 ^ 32 then (0 : Nat) else 0) = 0
  split <;> rfl

theorem get_put_self (t : TT) (k v : Nat) : (t.put k v).get k = v := by
  unfold TT.put TT.get
  simp

theorem get_put_other_slot {t : TT} {k k2 : Nat} (v : Nat)
    (h : k2 % ttSize ≠ k % ttSize) : (t.put k v).get k2 = t.get k2 := by
  unfold TT.put TT.get
  simp only [if_neg h]

theorem get_put_same_slot_diff {t : TT} {k k2 : Nat} (v : Nat)
    (hs : k2 % ttSize = k % ttSize) (hp : k2 % 2 ^ 32 ≠ k % 2 ^ 32) :
    (t.put k v).get k2 = 0 := by
  show (if (if k2 % ttSize = k % ttSize then k % 2 ^ 32 else t.pkey (k2 % ttSize)) =
      k2 % 2 ^ 32 then
      (if k2 % ttSize = k % ttSize then v else t.vals (k2 % ttSize)) else 0) = 0
  rw [if_pos hs, if_pos hs, if_neg (fun h2 => hp h2.symm)]

theorem key_eq_of_mods {k1 k2 : Nat} (h1 : k1 < 2 ^ 49) (h2 : k2 < 2 ^ 49)
    (hs : k1 % ttSize = k2 % ttSize) (hp : k1 % 2 ^ 32 = k2 % 2 ^ 32) :
    k1 = k2 := by
  have hco : Nat.Coprime ttSize (2 ^ 32) := by
    apply Nat.Coprime.pow_right
    decide
  have haux : ∀ a b : Nat, a ≤ b → b < 2 ^ 49 → a % ttSize = b % ttSize →
      a % 2 ^ 32 = b % 2 ^ 32 → a = b := by
    intro a b hab hb hsab hpab
    have hd1 : ttSize ∣ b - a := (Nat.modEq_iff_dvd' hab).1 hsab
    have hd2 : 2 ^ 32 ∣ b - a := (Nat.modEq_iff_dvd' hab).1 hpab
    have hd3 : ttSize * 2 ^ 32 ∣ b - a := Nat.Coprime.mul_dvd_of_dvd_of_dvd hco hd1 hd2
    have hlt : b - a < ttSize * 2 ^ 32 := by
      have : (2 : Nat) ^ 49 < ttSize * 2 ^ 32 := by norm_num [ttSize]
      omega
    rcases Nat.eq_zero_or_pos (b - a) with h0 | h0
    · omega
    · have h1 := Nat.le_of_dvd h0 hd3
      omega
  rcases le_total k1 k2 with h | h
  · exact haux k1 k2 h h2 hs hp
  · exact (haux k2 k1 h h1 hs.symm hp.symm).symm

/-- Validity of the transposition table: every stored value is a valid upper
bound on the game value of the (unique) well-formed position with that key. -/
def TTvalid (t : TT) : Prop :=
  ∀ Q : Position, wf Q → t.get (key Q) ≠ 0 →
    gv Q ≤ ((t.get (key Q) : Int)) + MIN_SCORE - 1

theorem TTvalid_reset : TTvalid TT.reset := by
  intro Q hQ hne
  rw [get_reset] at hne
  exact absurd rfl hne

theorem TTvalid_put {t : TT} (hv : TTvalid t) {P : Position} (hP : wf P)
    {v : Nat} (hval : gv P ≤ ((v : Int)) + MIN_SCORE - 1) :
    TTvalid (t.put (key P) v) := by
  intro Q hQ hne
  by_cases hslot : key Q % ttSize = key P % ttSize
  · by_cases hpk : key Q % 2 ^ 32 = key P % 2 ^ 32
    · have hk : key Q = key P := key_eq_of_mods (key_lt hQ) (key_lt hP) hslot hpk
      have hQP : Q = P := key_inj hQ hP hk
      subst hQP
      rw [hk, get_put_self]
      rw [hk, get_put_self] at hne
      exact hval
    · rw [get_put_same_slot_diff v hslot hpk] at hne
      exact absurd rfl hne
  · rw [get_put_other_slot v hslot] at hne ⊢
    exact hv Q hQ hne

/-! ### Move exploration order: membership -/

theorem mem_insertAsc {e : SEnt} : ∀ {l : List SEnt} {a : SEnt},
    a ∈ insertAsc e l ↔ a = e ∨ a ∈ l := by
  intro l
  induction l with
  | nil => intro a; simp [insertAsc]
  | cons x xs ih =>
    intro a
    unfold insertAsc
    by_cases h : e.sc < x.sc
    · rw [if_pos h]
      simp only [List.mem_cons]
    · rw [if_neg h]
      simp only [List.mem_cons, ih]
      tauto

/-- One step of the sorter-filling fold of `sortedMoves`. -/
def sorterStep (P : Position) (next : List Cell) (acc : List SEnt) (i : Nat) :
    List SEnt :=
  match next.find? (fun c => c.1 == columnOrder i) with
  | some c => insertAsc ⟨c, moveScore P c⟩ acc
  | none => acc

theorem sortedMoves_eq (P : Position) (next : List Cell) :
    sortedMoves P next = ((List.range 7).reverse).foldl (sorterStep P next) [] :=
  rfl

theorem mem_foldl_sorterStep {P : Position} {next : List Cell} :
    ∀ (l : List Nat) (acc : List SEnt) {a : SEnt},
    a ∈ l.foldl (sorterStep P next) acc →
    a ∈ acc ∨ ∃ c ∈ next, a = ⟨c, moveScore P c⟩ := by
  intro l
  induction l with
  | nil => intro acc a h; exact Or.inl h
  | cons i rest ih =>
    intro acc a h
    rw [List.foldl_cons] at h
    rcases ih _ h with h2 | h2
    · unfold sorterStep at h2
      rcases hf : next.find? (fun c => c.1 == columnOrder i) with _ | c
      · rw [hf] at h2
        exact Or.inl h2
      · rw [hf] at h2
        rcases mem_insertAsc.1 h2 with h3 | h3
        · exact Or.inr ⟨c, List.mem_of_find?_eq_some hf, h3⟩
        · exact Or.inl h3
    · exact Or.inr h2

theorem mem_foldl_sorterStep_of_mem {P : Position} {next : List Cell} :
    ∀ (l : List Nat) (acc : List SEnt) {a : SEnt},
    a ∈ acc → a ∈ l.foldl (sorterStep P next) acc := by
  intro l
  induction l with
  | nil => intro acc a h; exact h
  | cons i rest ih =>
    intro acc a h
    rw [List.foldl_cons]
    apply ih
    unfold sorterStep
    rcases hf : next.find? (fun c => c.1 == columnOrder i) with _ | c
    · rw [hf]
      exact h
    · rw [hf]
      exact mem_insertAsc.2 (Or.inr h)

theorem mem_foldl_sorterStep_of_find {P : Position} {next : List Cell} :
    ∀ (l : List Nat) (acc : List SEnt) {i : Nat}, i ∈ l →
    ∀ {c : Cell}, next.find? (fun d => d.1 == columnOrder i) = some c →
    (⟨c, moveScore P c⟩ : SEnt) ∈ l.foldl (sorterStep P next) acc := by
  intro l
  induction l with
  | nil => intro acc i hi; cases hi
  | cons j rest ih =>
    intro acc i hi c hf
    rw [List.foldl_cons]
    rcases List.mem_cons.1 hi with h1 | h1
    · subst h1
      apply mem_foldl_sorterStep_of_mem
      unfold sorterStep
      rw [hf]
      exact mem_insertAsc.2 (Or.inl rfl)
    · exact ih _ h1 hf

theorem columnOrder_surj : ∀ j, j < 7 → ∃ i, i < 7 ∧ columnOrder i = j := by
  decide

theorem mem_explOrder {P : Position} {next : List Cell}
    (hsub : ∀ c ∈ next, c ∈ playableList P) {c : Cell} :
    c ∈ explOrder P next ↔ c ∈ next := by
  unfold explOrder
  rw [List.mem_map]
  constructor
  · rintro ⟨e, he, rfl⟩
    rw [List.mem_reverse, sortedMoves_eq] at he
    rcases mem_foldl_sorterStep _ _ he with h | ⟨d, hd, rfl⟩
    · cases h
    · exact hd
  · intro hc
    obtain ⟨i, hi7, hio⟩ := columnOrder_surj c.1 (playable_col_lt (hsub c hc))
    have hsome : (next.find? (fun d => d.1 == columnOrder i)).isSome := by
      rw [List.find?_isSome]
      exact ⟨c, hc, by rw [hio]; simp⟩
    rcases hfind : next.find? (fun d => d.1 == columnOrder i) with _ | c2
    · rw [hfind] at hsome; cases hsome
    · have hc2 : c2 ∈ next := List.mem_of_find?_eq_some hfind
      have hcol : c2.1 = c.1 := by
        have := List.find?_some hfind
        rw [hio] at this
        exact eq_of_beq this
      have hcc : c2 = c := playable_unique_col (hsub c2 hc2) (hsub c hc) hcol
      subst hcc
      refine ⟨⟨c2, moveScore P c2⟩, ?_, rfl⟩
      rw [List.mem_reverse, sortedMoves_eq]
      exact mem_foldl_sorterStep_of_find _ _
        (List.mem_reverse.2 (List.mem_range.2 hi7)) hfind

/-! ### The fail-soft certificate and the negamax correctness theorem -/

/-- Fail-soft certificate: what a bounded search may return about a true
score `s` when probing the window `(a, b)`. -/
abbrev certifies (s a b r : Int) : Prop :=
  (r ≤ a → s ≤ r) ∧ (b ≤ r → r ≤ s) ∧ (a < r → r < b → r = s)

theorem certifies_exact {s a b : Int} : certifies s a b s :=
  ⟨fun _ => le_rfl, fun _ => le_rfl, fun _ _ => rfl⟩

theorem nmLoop_nil (child : Cell → Int → SolverSt → Int × SolverSt)
    (beta2 : Int) (pk : Nat) (a : Int) (st : SolverSt) :
    nmLoop child beta2 pk [] a st =
      (a, { st with tt := st.tt.put pk (a - MIN_SCORE + 1).toNat }) := rfl

theorem nmLoop_cons (child : Cell → Int → SolverSt → Int × SolverSt)
    (beta2 : Int) (pk : Nat) (c : Cell) (rest : List Cell) (a : Int)
    (st : SolverSt) :
    nmLoop child beta2 pk (c :: rest) a st =
      if beta2 ≤ -(child c a st).1 then (-(child c a st).1, (child c a st).2)
      else nmLoop child beta2 pk rest
        (if a < -(child c a st).1 then -(child c a st).1 else a)
        (child c a st).2 := rfl

/-- Loop invariant of the move-exploration loop of `negamax`: assuming each
child probe is a correct fail-soft search of the child, the loop either cuts
off with a lower bound on the score or exhausts the moves and returns an
upper bound (exact unless it never rose above the entry alpha). -/
theorem nmLoop_spec {P : Position} (hw : wf P) (hnw : ¬canWinNext P)
    (hne : possibleNonLosing P ≠ []) (beta2 alpha0 : Int)
    (child : Cell → Int → SolverSt → Int × SolverSt)
    (hA0 : MIN_SCORE ≤ alpha0)
    (hchild : ∀ c ∈ possibleNonLosing P, ∀ (a2 : Int) (s2 : SolverSt),
      alpha0 ≤ a2 → a2 < beta2 → TTvalid s2.tt →
      TTvalid (child c a2 s2).2.tt ∧
        certifies (gv (play P c)) (-beta2) (-a2) (child c a2 s2).1) :
    ∀ (l : List Cell) (a : Int) (st : SolverSt),
    (∀ c ∈ l, c ∈ possibleNonLosing P) →
    (∀ c ∈ possibleNonLosing P, c ∈ l ∨ -gv (play P c) ≤ a) →
    (a = alpha0 ∨ a ≤ gv P) → alpha0 ≤ a → a < beta2 → TTvalid st.tt →
    TTvalid (nmLoop child beta2 (key P) l a st).2.tt ∧
      ((beta2 ≤ (nmLoop child beta2 (key P) l a st).1 ∧
          (nmLoop child beta2 (key P) l a st).1 ≤ gv P) ∨
        (a ≤ (nmLoop child beta2 (key P) l a st).1 ∧
          (nmLoop child beta2 (key P) l a st).1 < beta2 ∧
          gv P ≤ (nmLoop child beta2 (key P) l a st).1 ∧
          ((nmLoop child beta2 (key P) l a st).1 = alpha0 ∨
            (nmLoop child beta2 (key P) l a st).1 ≤ gv P))) := by
  intro l
  induction l with
  | nil =>
    intro a st hsub hall halow ha0 hab hTT
    rw [nmLoop_nil]
    have hgv : gv P ≤ a := by
      rw [gv_eq_max_nonLosing hw hnw hne]
      apply listMax_le
      · simp only [ne_eq, List.map_eq_nil_iff]
        exact hne
      · intro x hx
        rw [List.mem_map] at hx
        obtain ⟨c, hc, rfl⟩ := hx
        rcases hall c hc with h | h
        · cases h
        · exact h
    refine ⟨?_, Or.inr ⟨le_rfl, hab, hgv, halow⟩⟩
    have hMS : MIN_SCORE = -21 := rfl
    have hnn : 0 ≤ a - MIN_SCORE + 1 := by omega
    have hv : gv P ≤ (((a - MIN_SCORE + 1).toNat : Int)) + MIN_SCORE - 1 := by
      rw [Int.toNat_of_nonneg hnn]
      omega
    exact TTvalid_put hTT hw hv
  | cons c rest ih =>
    intro a st hsub hall halow ha0 hab hTT
    have hcmem : c ∈ possibleNonLosing P := hsub c (List.mem_cons_self c rest)
    obtain ⟨hTTc, hc1, hc2, hc3⟩ := hchild c hcmem a st ha0 hab hTT
    have hneg : -gv (play P c) ≤ gv P :=
      gv_ge_neg_child hw hnw (possibleNonLosing_subset hcmem)
    rw [nmLoop_cons]
    by_cases hcut : beta2 ≤ -(child c a st).1
    · rw [if_pos hcut]
      refine ⟨hTTc, Or.inl ⟨hcut, ?_⟩⟩
      have h5 : gv (play P c) ≤ (child c a st).1 := hc1 (by omega)
      omega
    · rw [if_neg hcut]
      rcases lt_or_ge a (-(child c a st).1) with hlt | hge
      · -- alpha rises to the child's exact score
        rw [if_pos hlt]
        have h8 : (child c a st).1 = gv (play P c) := hc3 (by omega) (by omega)
        have hres := ih (-(child c a st).1) (child c a st).2
          (fun d hd => hsub d (List.mem_cons_of_mem c hd))
          (fun d hd => by
            rcases hall d hd with hm | hle
            · rcases List.mem_cons.1 hm with h | h
              · subst h
                exact Or.inr (by omega)
              · exact Or.inl h
            · exact Or.inr (by omega))
          (Or.inr (by omega)) (by omega) (by omega) hTTc
        refine ⟨hres.1, ?_⟩
        rcases hres.2 with ⟨h1, h2⟩ | ⟨h1, h2, h3, h4⟩
        · exact Or.inl ⟨h1, h2⟩
        · exact Or.inr ⟨by omega, h2, h3, by
            rcases h4 with h | h
            · exact Or.inr (by omega)
            · exact Or.inr h⟩
      · -- the child fails low: alpha stays
        rw [if_neg (not_lt.2 hge)]
        have h7 : (child c a st).1 ≤ gv (play P c) := hc2 (by omega)
        have hres := ih a (child c a st).2
          (fun d hd => hsub d (List.mem_cons_of_mem c hd))
          (fun d hd => by
            rcases hall d hd with hm | hle
            · rcases List.mem_cons.1 hm with h | h
              · subst h
                exact Or.inr (by omega)
              · exact Or.inl h
            · exact Or.inr hle)
          halow ha0 hab hTTc
        exact hres

/-- Certificate assembly for the post-loop stage of `negamax`. -/
theorem stage_cert {s a b a1 b1 mn mx r : Int} (hab : a < b)
    (hmn_gv : mn ≤ s) (hmx_gv : s ≤ mx)
    (ha1 : (a1 = a ∧ mn ≤ a) ∨ (a1 = mn ∧ a < mn))
    (hb1 : (b1 = b ∧ b ≤ mx) ∨ (b1 = mx ∧ mx < b))
    (hconc : (b1 ≤ r ∧ r ≤ s) ∨
      (a1 ≤ r ∧ r < b1 ∧ s ≤ r ∧ (r = a1 ∨ r ≤ s))) :
    certifies s a b r := by
  rcases ha1 with ⟨hA, hA2⟩ | ⟨hA, hA2⟩ <;>
    rcases hb1 with ⟨hB, hB2⟩ | ⟨hB, hB2⟩ <;>
    rcases hconc with ⟨h1, h2⟩ | ⟨h1, h2, h3, h4 | h4⟩ <;>
    exact ⟨fun h => by omega, fun h => by omega, fun h h2 => by omega⟩

theorem negamax_succ (fuel : Nat) (P : Position) (a b : Int) (st : SolverSt) :
    negamax (fuel + 1) P a b st = negamaxAux (negamax fuel) P a b st := rfl

theorem negamax_nil {fuel : Nat} {P : Position} {a b : Int} {st : SolverSt}
    (h : possibleNonLosing P = []) :
    negamax (fuel + 1) P a b st =
      (Int.tdiv (-(42 - (P.moves : Int))) 2,
        { st with nodes := st.nodes + 1 }) := by
  rw [negamax_succ]
  simp only [negamaxAux]
  rw [if_pos h]

theorem negamax_draw {fuel : Nat} {P : Position} {a b : Int} {st : SolverSt}
    (h1 : ¬possibleNonLosing P = []) (h2 : 42 - 2 ≤ P.moves) :
    negamax (fuel + 1) P a b st = (0, { st with nodes := st.nodes + 1 }) := by
  rw [negamax_succ]
  simp only [negamaxAux]
  rw [if_neg h1, if_pos h2]

theorem negamax_mn {fuel : Nat} {P : Position} {a b : Int} {st : SolverSt}
    (h1 : ¬possibleNonLosing P = []) (h2 : ¬(42 - 2 ≤ P.moves))
    (h3 : a < Int.tdiv (-(42 - 2 - (P.moves : Int))) 2 ∧
      b ≤ Int.tdiv (-(42 - 2 - (P.moves : Int))) 2) :
    negamax (fuel + 1) P a b st =
      (Int.tdiv (-(42 - 2 - (P.moves : Int))) 2,
        { st with nodes := st.nodes + 1 }) := by
  rw [negamax_succ]
  simp only [negamaxAux]
  rw [if_neg h1, if_neg h2, if_pos h3]

theorem negamax_mx {fuel : Nat} {P : Position} {a b : Int} {st : SolverSt}
    (h1 : ¬possibleNonLosing P = []) (h2 : ¬(42 - 2 ≤ P.moves))
    (h3 : ¬(a < Int.tdiv (-(42 - 2 - (P.moves : Int))) 2 ∧
      b ≤ Int.tdiv (-(42 - 2 - (P.moves : Int))) 2))
    (h4 : (if st.tt.get (key P) ≠ 0
        then ((st.tt.get (key P) : Int)) + MIN_SCORE - 1
        else Int.tdiv (42 - 1 - (P.moves : Int)) 2) < b ∧
      (if st.tt.get (key P) ≠ 0
        then ((st.tt.get (key P) : Int)) + MIN_SCORE - 1
        else Int.tdiv (42 - 1 - (P.moves : Int)) 2) ≤
      (if a < Int.tdiv (-(42 - 2 - (P.moves : Int))) 2
        then Int.tdiv (-(42 - 2 - (P.moves : Int))) 2 else a)) :
    negamax (fuel + 1) P a b st =
      ((if st.tt.get (key P) ≠ 0
          then ((st.tt.get (key P) : Int)) + MIN_SCORE - 1
          else Int.tdiv (42 - 1 - (P.moves : Int)) 2),
        { st with nodes := st.nodes + 1 }) := by
  rw [negamax_succ]
  simp only [negamaxAux]
  rw [if_neg h1, if_neg h2, if_neg h3, if_pos h4]

theorem negamax_loop {fuel : Nat} {P : Position} {a b : Int} {st : SolverSt}
    (h1 : ¬possibleNonLosing P = []) (h2 : ¬(42 - 2 ≤ P.moves))
    (h3 : ¬(a < Int.tdiv (-(42 - 2 - (P.moves : Int))) 2 ∧
      b ≤ Int.tdiv (-(42 - 2 - (P.moves : Int))) 2))
    (h4 : ¬((if st.tt.get (key P) ≠ 0
        then ((st.tt.get (key P) : Int)) + MIN_SCORE - 1
        else Int.tdiv (42 - 1 - (P.moves : Int)) 2) < b ∧
      (if st.tt.get (key P) ≠ 0
        then ((st.tt.get (key P) : Int)) + MIN_SCORE - 1
        else Int.tdiv (42 - 1 - (P.moves : Int)) 2) ≤
      (if a < Int.tdiv (-(42 - 2 - (P.moves : Int))) 2
        then Int.tdiv (-(42 - 2 - (P.moves : Int))) 2 else a))) :
    negamax (fuel + 1) P a b st =
      nmLoop (fun c a2 s => negamax fuel (play P c)
          (-(if (if st.tt.get (key P) ≠ 0
              then ((st.tt.get (key P) : Int)) + MIN_SCORE - 1
              else Int.tdiv (42 - 1 - (P.moves : Int)) 2) < b
            then (if st.tt.get (key P) ≠ 0
              then ((st.tt.get (key P) : Int)) + MIN_SCORE - 1
              else Int.tdiv (42 - 1 - (P.moves : Int)) 2)
            else b)) (-a2) s)
        (if (if st.tt.get (key P) ≠ 0
            then ((st.tt.get (key P) : Int)) + MIN_SCORE - 1
            else Int.tdiv (42 - 1 - (P.moves : Int)) 2) < b
          then (if st.tt.get (key P) ≠ 0
            then ((st.tt.get (key P) : Int)) + MIN_SCORE - 1
            else Int.tdiv (42 - 1 - (P.moves : Int)) 2)
          else b)
        (key P) (explOrder P (possibleNonLosing P))
        (if a < Int.tdiv (-(42 - 2 - (P.moves : Int))) 2
          then Int.tdiv (-(42 - 2 - (P.moves : Int))) 2 else a)
        { st with nodes := st.nodes + 1 } := by
  rw [negamax_succ]
  simp only [negamaxAux]
  rw [if_neg h1, if_neg h2, if_neg h3, if_neg h4]

/-- The master correctness theorem of `Solver::negamax`: on a well-formed
position with no immediate win, a valid window and a valid transposition
table, the search preserves table validity and returns a fail-soft
certificate for the game value. -/
theorem negamax_spec : ∀ (fuel : Nat) (P : Position) (a b : Int)
    (st : SolverSt), wf P → ¬canWinNext P → a < b → TTvalid st.tt →
    42 - P.moves < fuel →
    TTvalid (negamax fuel P a b st).2.tt ∧
      certifies (gv P) a b (negamax fuel P a b st).1 := by
  intro fuel
  induction fuel with
  | zero => intro P a b st _ _ _ _ hf; exact absurd hf (Nat.not_lt_zero _)
  | succ fuel ih =>
    intro P a b st hw hnw hab hTT hf
    by_cases hnl : possibleNonLosing P = []
    · rw [negamax_nil hnl]
      refine ⟨hTT, ?_⟩
      rw [gv_nonLosing_nil hw hnw hnl]
      exact certifies_exact
    · by_cases hdr : 42 - 2 ≤ P.moves
      · rw [negamax_draw hnl hdr]
        refine ⟨hTT, ?_⟩
        rw [gv_draw hw hnw hnl (by omega)]
        exact certifies_exact
      · have hm40 : P.moves < 40 := by omega
        have hmn_gv : Int.tdiv (-(42 - 2 - (P.moves : Int))) 2 ≤ gv P :=
          gv_lower_nonLosing hw hnw hnl
        by_cases hret1 : a < Int.tdiv (-(42 - 2 - (P.moves : Int))) 2 ∧
            b ≤ Int.tdiv (-(42 - 2 - (P.moves : Int))) 2
        · rw [negamax_mn hnl hdr hret1]
          exact ⟨hTT, fun h => by omega, fun _ => hmn_gv, fun _ h2 => by omega⟩
        · have hmx_gv : gv P ≤ (if st.tt.get (key P) ≠ 0
              then ((st.tt.get (key P) : Int)) + MIN_SCORE - 1
              else Int.tdiv (42 - 1 - (P.moves : Int)) 2) := by
            by_cases hv : st.tt.get (key P) ≠ 0
            · rw [if_pos hv]
              exact hTT P hw hv
            · rw [if_neg hv]
              exact gv_upper_noWin hw hnw
          have HA : ((if a < Int.tdiv (-(42 - 2 - (P.moves : Int))) 2
                then Int.tdiv (-(42 - 2 - (P.moves : Int))) 2 else a) = a ∧
                Int.tdiv (-(42 - 2 - (P.moves : Int))) 2 ≤ a) ∨
              ((if a < Int.tdiv (-(42 - 2 - (P.moves : Int))) 2
                then Int.tdiv (-(42 - 2 - (P.moves : Int))) 2 else a) =
                Int.tdiv (-(42 - 2 - (P.moves : Int))) 2 ∧
                a < Int.tdiv (-(42 - 2 - (P.moves : Int))) 2) := by
            rcases lt_or_ge a (Int.tdiv (-(42 - 2 - (P.moves : Int))) 2) with
              h | h
            · exact Or.inr ⟨if_pos h, h⟩
            · exact Or.inl ⟨if_neg (not_lt.2 h), h⟩
          have HB : ((if (if st.tt.get (key P) ≠ 0
                then ((st.tt.get (key P) : Int)) + MIN_SCORE - 1
                else Int.tdiv (42 - 1 - (P.moves : Int)) 2) < b
                then (if st.tt.get (key P) ≠ 0
                  then ((st.tt.get (key P) : Int)) + MIN_SCORE - 1
                  else Int.tdiv (42 - 1 - (P.moves : Int)) 2)
                else b) = b ∧
              b ≤ (if st.tt.get (key P) ≠ 0
                then ((st.tt.get (key P) : Int)) + MIN_SCORE - 1
                else Int.tdiv (42 - 1 - (P.moves : Int)) 2)) ∨
              ((if (if st.tt.get (key P) ≠ 0
                then ((st.tt.get (key P) : Int)) + MIN_SCORE - 1
                else Int.tdiv (42 - 1 - (P.moves : Int)) 2) < b
                then (if st.tt.get (key P) ≠ 0
                  then ((st.tt.get (key P) : Int)) + MIN_SCORE - 1
                  else Int.tdiv (42 - 1 - (P.moves : Int)) 2)
                else b) = (if st.tt.get (key P) ≠ 0
                  then ((st.tt.get (key P) : Int)) + MIN_SCORE - 1
                  else Int.tdiv (42 - 1 - (P.moves : Int)) 2) ∧
              (if st.tt.get (key P) ≠ 0
                then ((st.tt.get (key P) : Int)) + MIN_SCORE - 1
                else Int.tdiv (42 - 1 - (P.moves : Int)) 2) < b) := by
            rcases lt_or_ge (if st.tt.get (key P) ≠ 0
                then ((st.tt.get (key P) : Int)) + MIN_SCORE - 1
                else Int.tdiv (42 - 1 - (P.moves : Int)) 2) b with h | h
            · exact Or.inr ⟨if_pos h, h⟩
            · exact Or.inl ⟨if_neg (not_lt.2 h), h⟩
          by_cases hret2 : (if st.tt.get (key P) ≠ 0
              then ((st.tt.get (key P) : Int)) + MIN_SCORE - 1
              else Int.tdiv (42 - 1 - (P.moves : Int)) 2) < b ∧
            (if st.tt.get (key P) ≠ 0
              then ((st.tt.get (key P) : Int)) + MIN_SCORE - 1
              else Int.tdiv (42 - 1 - (P.moves : Int)) 2) ≤
            (if a < Int.tdiv (-(42 - 2 - (P.moves : Int))) 2
              then Int.tdiv (-(42 - 2 - (P.moves : Int))) 2 else a)
          · rw [negamax_mx hnl hdr hret1 hret2]
            refine ⟨hTT, fun h => hmx_gv, fun h => by omega, fun h1 h2 => ?_⟩
            rcases HA with ⟨hA, hA2⟩ | ⟨hA, hA2⟩ <;> omega
          · -- the exploration loop
            have hmnval := neg_tdiv2 (42 - 2 - (P.moves : Int))
            have hmnb := tdiv2_bounds (42 - 2 - (P.moves : Int))
              (by
                have : (P.moves : Int) < 40 := by exact_mod_cast hm40
                omega)
            have hMS : MIN_SCORE = -21 := rfl
            have hmLt : (P.moves : Int) < 40 := by exact_mod_cast hm40
            have hA0 : MIN_SCORE ≤
                (if a < Int.tdiv (-(42 - 2 - (P.moves : Int))) 2
                  then Int.tdiv (-(42 - 2 - (P.moves : Int))) 2 else a) := by
              rcases HA with ⟨hA, hA2⟩ | ⟨hA, hA2⟩ <;> omega
            have hab1 : (if a < Int.tdiv (-(42 - 2 - (P.moves : Int))) 2
                then Int.tdiv (-(42 - 2 - (P.moves : Int))) 2 else a) <
                (if (if st.tt.get (key P) ≠ 0
                  then ((st.tt.get (key P) : Int)) + MIN_SCORE - 1
                  else Int.tdiv (42 - 1 - (P.moves : Int)) 2) < b
                then (if st.tt.get (key P) ≠ 0
                  then ((st.tt.get (key P) : Int)) + MIN_SCORE - 1
                  else Int.tdiv (42 - 1 - (P.moves : Int)) 2)
                else b) := by
              rcases HA with ⟨hA, hA2⟩ | ⟨hA, hA2⟩ <;>
                rcases HB with ⟨hB, hB2⟩ | ⟨hB, hB2⟩ <;>
                rcases not_and_or.1 hret2 with h | h <;>
                rcases not_and_or.1 hret1 with h0 | h0 <;>
                omega
            have hchild : ∀ c ∈ possibleNonLosing P, ∀ (a2 : Int)
                (s2 : SolverSt),
                (if a < Int.tdiv (-(42 - 2 - (P.moves : Int))) 2
                  then Int.tdiv (-(42 - 2 - (P.moves : Int))) 2 else a) ≤ a2 →
                a2 < (if (if st.tt.get (key P) ≠ 0
                    then ((st.tt.get (key P) : Int)) + MIN_SCORE - 1
                    else Int.tdiv (42 - 1 - (P.moves : Int)) 2) < b
                  then (if st.tt.get (key P) ≠ 0
                    then ((st.tt.get (key P) : Int)) + MIN_SCORE - 1
                    else Int.tdiv (42 - 1 - (P.moves : Int)) 2)
                  else b) →
                TTvalid s2.tt →
                TTvalid ((fun c a2 s => negamax fuel (play P c)
                    (-(if (if st.tt.get (key P) ≠ 0
                      then ((st.tt.get (key P) : Int)) + MIN_SCORE - 1
                      else Int.tdiv (42 - 1 - (P.moves : Int)) 2) < b
                    then (if st.tt.get (key P) ≠ 0
                      then ((st.tt.get (key P) : Int)) + MIN_SCORE - 1
                      else Int.tdiv (42 - 1 - (P.moves : Int)) 2)
                    else b)) (-a2) s) c a2 s2).2.tt ∧
                  certifies (gv (play P c))
                    (-(if (if st.tt.get (key P) ≠ 0
                      then ((st.tt.get (key P) : Int)) + MIN_SCORE - 1
                      else Int.tdiv (42 - 1 - (P.moves : Int)) 2) < b
                    then (if st.tt.get (key P) ≠ 0
                      then ((st.tt.get (key P) : Int)) + MIN_SCORE - 1
                      else Int.tdiv (42 - 1 - (P.moves : Int)) 2)
                    else b)) (-a2)
                    ((fun c a2 s => negamax fuel (play P c)
                      (-(if (if st.tt.get (key P) ≠ 0
                        then ((st.tt.get (key P) : Int)) + MIN_SCORE - 1
                        else Int.tdiv (42 - 1 - (P.moves : Int)) 2) < b
                      then (if st.tt.get (key P) ≠ 0
                        then ((st.tt.get (key P) : Int)) + MIN_SCORE - 1
                        else Int.tdiv (42 - 1 - (P.moves : Int)) 2)
                      else b)) (-a2) s) c a2 s2).1 := by
              intro c hc a2 s2 ha2 hb2 hTT2
              have hcp := possibleNonLosing_subset hc
              have hpm : (play P c).moves = P.moves + 1 := rfl
              exact ih (play P c) _ (-a2) s2 (wf_play hw hcp)
                (nonLosing_safe hw hc) (by omega) hTT2 (by omega)
            rw [negamax_loop hnl hdr hret1 hret2]
            obtain ⟨hT, hconc⟩ := nmLoop_spec hw hnw hnl _ _ _ hA0 hchild
              (explOrder P (possibleNonLosing P)) _
              { st with nodes := st.nodes + 1 }
              (fun d hd =>
                (mem_explOrder (fun e he => possibleNonLosing_subset he)).1 hd)
              (fun d hd => Or.inl
                ((mem_explOrder (fun e he => possibleNonLosing_subset he)).2 hd))
              (Or.inl rfl) le_rfl hab1 hTT
            exact ⟨hT, stage_cert hab hmn_gv hmx_gv HA HB hconc⟩

/-! ### The iterative narrowing loop of solve -/

theorem solveLoop_zero (probe : Int → SolverSt → Int × SolverSt)
    (mn mx : Int) (st : SolverSt) :
    solveLoop probe 0 mn mx st = if mn < mx then none else some (mn, st) := rfl

theorem solveLoop_succ (probe : Int → SolverSt → Int × SolverSt) (fuel : Nat)
    (mn mx : Int) (st : SolverSt) :
    solveLoop probe (fuel + 1) mn mx st =
      if mn < mx then
        (if (probe (medOf mn mx) st).1 ≤ medOf mn mx then
          solveLoop probe fuel mn (probe (medOf mn mx) st).1
            (probe (medOf mn mx) st).2
        else solveLoop probe fuel (probe (medOf mn mx) st).1 mx
            (probe (medOf mn mx) st).2)
      else some (mn, st) := rfl

theorem solveLoop_exit (probe : Int → SolverSt → Int × SolverSt) (fuel : Nat)
    (mn mx : Int) (st : SolverSt) (h : ¬mn < mx) :
    solveLoop probe fuel mn mx st = some (mn, st) := by
  cases fuel with
  | zero => rw [solveLoop_zero, if_neg h]
  | succ f => rw [solveLoop_succ, if_neg h]

/-- The probe point lies inside the half-open window. -/
theorem medOf_bounds {mn mx : Int} (h : mn < mx) :
    mn ≤ medOf mn mx ∧ medOf mn mx < mx := by
  have hb := tdiv2_bounds (mx - mn) (by omega)
  have hmn2 : mn.tdiv 2 = -((-mn).tdiv 2) := by
    rw [← neg_tdiv2, neg_neg]
  simp only [medOf]
  by_cases h1 : mn + Int.tdiv (mx - mn) 2 ≤ 0 ∧
      Int.tdiv mn 2 < mn + Int.tdiv (mx - mn) 2
  · rw [if_pos h1]
    have hmneg : mn ≤ 0 := by omega
    have hb2 := tdiv2_bounds (-mn) (by omega)
    omega
  · rw [if_neg h1]
    by_cases h2 : 0 ≤ mn + Int.tdiv (mx - mn) 2 ∧
        mn + Int.tdiv (mx - mn) 2 < Int.tdiv mx 2
    · rw [if_pos h2]
      rcases le_or_lt 0 mx with hmx | hmx
      · have hb3 := tdiv2_bounds mx hmx
        omega
      · have hmx2 : mx.tdiv 2 = -((-mx).tdiv 2) := by
          rw [← neg_tdiv2, neg_neg]
        have hb3 := tdiv2_bounds (-mx) (by omega)
        omega
    · rw [if_neg h2]
      omega

/-- The loop terminates within its fuel whenever the fuel exceeds the window
width, whatever the probe returns: the window shrinks every iteration. -/
theorem solveLoop_total (probe : Int → SolverSt → Int × SolverSt) :
    ∀ (fuel : Nat) (mn mx : Int) (st : SolverSt), (mx - mn).toNat < fuel →
    ∃ r st2, solveLoop probe fuel mn mx st = some (r, st2) := by
  intro fuel
  induction fuel with
  | zero => intro mn mx st h; exact absurd h (Nat.not_lt_zero _)
  | succ fuel ih =>
    intro mn mx st h
    rw [solveLoop_succ]
    by_cases hlt : mn < mx
    · rw [if_pos hlt]
      obtain ⟨hm1, hm2⟩ := medOf_bounds hlt
      by_cases hr : (probe (medOf mn mx) st).1 ≤ medOf mn mx
      · rw [if_pos hr]
        exact ih _ _ _ (by omega)
      · rw [if_neg hr]
        exact ih _ _ _ (by omega)
    · rw [if_neg hlt]
      exact ⟨mn, st, rfl⟩

/-- When the true score lies in the window and each probe is a correct
fail-soft null-window search, the loop converges to exactly the score. -/
theorem solveLoop_exact (s : Int) (probe : Int → SolverSt → Int × SolverSt)
    (hprobe : ∀ (med : Int) (st2 : SolverSt), TTvalid st2.tt →
      TTvalid (probe med st2).2.tt ∧
        certifies s med (med + 1) (probe med st2).1) :
    ∀ (fuel : Nat) (mn mx : Int) (st : SolverSt), (mx - mn).toNat < fuel →
    mn ≤ s → s ≤ mx → TTvalid st.tt →
    ∃ st2, solveLoop probe fuel mn mx st = some (s, st2) ∧ TTvalid st2.tt := by
  intro fuel
  induction fuel with
  | zero => intro mn mx st h; exact absurd h (Nat.not_lt_zero _)
  | succ fuel ih =>
    intro mn mx st h hmn hmx hTT
    rw [solveLoop_succ]
    by_cases hlt : mn < mx
    · rw [if_pos hlt]
      obtain ⟨hm1, hm2⟩ := medOf_bounds hlt
      obtain ⟨hT, hc1, hc2, hc3⟩ := hprobe (medOf mn mx) st hTT
      by_cases hr : (probe (medOf mn mx) st).1 ≤ medOf mn mx
      · rw [if_pos hr]
        have hs := hc1 hr
        exact ih _ _ _ (by omega) hmn hs hT
      · rw [if_neg hr]
        have hs := hc2 (by omega)
        exact ih _ _ _ (by omega) hs hmx hT
    · rw [if_neg hlt]
      have hse : mn = s := by omega
      subst hse
      exact ⟨st, rfl, hTT⟩

theorem solve_canWin {P : Position} (h : canWinNext P) (weak : Bool)
    (st : SolverSt) :
    solve P weak st = (Int.tdiv (42 + 1 - (P.moves : Int)) 2, st) := by
  simp only [solve]
  rw [if_pos h]

theorem solve_false_probe {P : Position} (h : ¬canWinNext P) {st : SolverSt}
    {r : Int} {st2 : SolverSt}
    (hsl : solveLoop (fun med s => negamax 43 P med (med + 1) s) 64
      (Int.tdiv (-(42 - (P.moves : Int))) 2)
      (Int.tdiv (42 + 1 - (P.moves : Int)) 2) st = some (r, st2)) :
    solve P false st = (r, st2) := by
  simp only [solve, Bool.false_eq_true, if_false]
  rw [if_neg h, hsl]

theorem solve_true_probe {P : Position} (h : ¬canWinNext P) {st : SolverSt}
    {r : Int} {st2 : SolverSt}
    (hsl : solveLoop (fun med s => negamax 43 P med (med + 1) s) 64
      (-1) 1 st = some (r, st2)) :
    solve P true st = (r, st2) := by
  simp only [solve, if_true]
  rw [if_neg h, hsl]

/-- The probe `solve` uses is a correct fail-soft null-window search. -/
theorem solve_probe_ok {P : Position} (hw : wf P) (hnw : ¬canWinNext P) :
    ∀ (med : Int) (st2 : SolverSt), TTvalid st2.tt →
    TTvalid (negamax 43 P med (med + 1) st2).2.tt ∧
      certifies (gv P) med (med + 1) (negamax 43 P med (med + 1) st2).1 :=
  fun med st2 hv =>
    negamax_spec 43 P med (med + 1) st2 hw hnw (by omega) hv (by omega)

/-- `solve` in strong mode computes the game value from any valid table. -/
theorem solve_strong_exact {P : Position} (hw : wf P) {st : SolverSt}
    (hTT : TTvalid st.tt) : (solve P false st).1 = gv P := by
  by_cases hcw : canWinNext P
  · rw [solve_canWin hcw, gv_canWin hw hcw]
  · have hb := gv_bounds (n := 42) hw (by omega)
    have hm42 : P.moves ≤ 42 := wf_moves_le hw
    have hmc : (P.moves : Int) ≤ 42 := by exact_mod_cast hm42
    have h1 := tdiv2_bounds (42 - (P.moves : Int)) (by omega)
    have h2 := tdiv2_bounds (42 + 1 - (P.moves : Int)) (by omega)
    have h3 := neg_tdiv2 (42 - (P.moves : Int))
    obtain ⟨st2, hsl, hT2⟩ := solveLoop_exact (gv P) _
      (solve_probe_ok hw hcw) 64
      (Int.tdiv (-(42 - (P.moves : Int))) 2)
      (Int.tdiv (42 + 1 - (P.moves : Int)) 2) st (by omega) hb.1 hb.2 hTT
    rw [solve_false_probe hcw hsl]

/-- Exact behaviour of the weak-mode narrowing loop, by tracing its at most
two probes. -/
theorem weakLoop_spec (probe : Int → SolverSt → Int × SolverSt) (s : Int)
    (hprobe : ∀ (med : Int) (st2 : SolverSt), TTvalid st2.tt →
      TTvalid (probe med st2).2.tt ∧
        certifies s med (med + 1) (probe med st2).1)
    (st : SolverSt) (hTT : TTvalid st.tt) :
    ∃ r st2, solveLoop probe 64 (-1) 1 st = some (r, st2) ∧
      (s ≤ -1 → r = -1) ∧ (s = 0 → r = 0) ∧ (1 ≤ s → 1 ≤ r ∧ r ≤ s) := by
  have hmed1 : medOf (-1) 1 = 0 := by decide
  obtain ⟨hT1, hc11, hc12, hc13⟩ := hprobe 0 st hTT
  show ∃ r st2, solveLoop probe (63 + 1) (-1) 1 st = some (r, st2) ∧ _
  rw [solveLoop_succ, if_pos (by decide : (-1 : Int) < 1), hmed1]
  by_cases hA : (probe 0 st).1 ≤ 0
  · rw [if_pos hA]
    have hs_le : s ≤ (probe 0 st).1 := hc11 hA
    by_cases hB : (probe 0 st).1 ≤ -1
    · rw [solveLoop_exit probe 63 _ _ _ (by omega)]
      exact ⟨-1, (probe 0 st).2, rfl, fun _ => rfl, fun h0 => by omega,
        fun h1 => by omega⟩
    · have hr0 : (probe 0 st).1 = 0 := by omega
      rw [hr0]
      obtain ⟨hT2, hc21, hc22, hc23⟩ := hprobe (-1) (probe 0 st).2 hT1
      have hmed2 : medOf (-1) 0 = -1 := by decide
      show ∃ r st2, solveLoop probe (62 + 1) (-1) 0 (probe 0 st).2 =
        some (r, st2) ∧ _
      rw [solveLoop_succ, if_pos (by decide : (-1 : Int) < 0), hmed2]
      by_cases hC : (probe (-1) (probe 0 st).2).1 ≤ -1
      · rw [if_pos hC]
        have hs2 : s ≤ (probe (-1) (probe 0 st).2).1 := hc21 hC
        rw [solveLoop_exit probe 62 _ _ _ (by omega)]
        exact ⟨-1, _, rfl, fun _ => rfl, fun h0 => by omega, fun h1 => by omega⟩
      · rw [if_neg hC]
        have hle : (probe (-1) (probe 0 st).2).1 ≤ s := hc22 (by omega)
        rw [solveLoop_exit probe 62 _ _ _ (by omega)]
        exact ⟨(probe (-1) (probe 0 st).2).1, _, rfl, fun h0 => by omega,
          fun h0 => by omega, fun h1 => by omega⟩
  · rw [if_neg hA]
    have hle : (probe 0 st).1 ≤ s := hc12 (by omega)
    rw [solveLoop_exit probe 63 _ _ _ (by omega)]
    exact ⟨(probe 0 st).1, _, rfl, fun h0 => by omega, fun h0 => by omega,
      fun h1 => ⟨by omega, hle⟩⟩

/-- Case description of `solve` in weak mode: agreement with the sign of the
game value on losses and draws; on wins a value between 1 and the score. -/
theorem solve_weak_cases {P : Position} (hw : wf P) {st : SolverSt}
    (hTT : TTvalid st.tt) :
    (gv P ≤ -1 → (solve P true st).1 = -1) ∧
    (gv P = 0 → (solve P true st).1 = 0) ∧
    (1 ≤ gv P → 1 ≤ (solve P true st).1 ∧ (solve P true st).1 ≤ gv P) := by
  by_cases hcw : canWinNext P
  · have hEq1 : (solve P true st).1 = Int.tdiv (42 + 1 - (P.moves : Int)) 2 :=
      by rw [solve_canWin hcw]
    have hg := gv_canWin hw hcw
    have hm : P.moves ≤ 41 := by
      obtain ⟨c, hc, _⟩ := hcw
      have := moves_lt_of_playable hw (fun hnil => by rw [hnil] at hc; cases hc)
      omega
    have hcast : (P.moves : Int) ≤ 41 := by exact_mod_cast hm
    have hb := tdiv2_bounds (42 + 1 - (P.moves : Int)) (by omega)
    exact ⟨fun h => by omega, fun h => by omega, fun h => by omega⟩
  · obtain ⟨r, st2, hsl, hA, hB, hC⟩ := weakLoop_spec _ (gv P)
      (solve_probe_ok hw hcw) st hTT
    have hEq1 : (solve P true st).1 = r := by rw [solve_true_probe hcw hsl]
    exact ⟨fun h => by rw [hEq1]; exact hA h, fun h => by rw [hEq1]; exact hB h,
      fun h => by rw [hEq1]; exact hC h⟩

/-! ### The driver: sequence application -/

theorem playChars_moves : ∀ (l : List Char) (P : Position),
    (playChars P l).1.moves = P.moves + (playChars P l).2 := by
  intro l
  induction l with
  | nil => intro P; rfl
  | cons ch rest ih =>
    intro P
    rcases hs : stepOK P ch with _ | c
    · simp only [playChars, hs]
      omega
    · simp only [playChars, hs]
      have hpm : (play P c).moves = P.moves + 1 := rfl
      have h2 := ih (play P c)
      omega

theorem playChars_le : ∀ (l : List Char) (P : Position),
    (playChars P l).2 ≤ l.length := by
  intro l
  induction l with
  | nil => intro P; exact Nat.le_refl 0
  | cons ch rest ih =>
    intro P
    rcases hs : stepOK P ch with _ | c
    · simp only [playChars, hs, List.length_cons]
      omega
    · simp only [playChars, hs, List.length_cons]
      have h2 := ih (play P c)
      omega

theorem playChars_stop : ∀ (l : List Char) (P : Position),
    (playChars P l).2 < l.length →
    stepOK (playChars P l).1 (l.getD (playChars P l).2 '0') = none := by
  intro l
  induction l with
  | nil => intro P h; exact absurd h (Nat.not_lt_zero _)
  | cons ch rest ih =>
    intro P h
    rcases hs : stepOK P ch with _ | c
    · simp only [playChars, hs]
      exact hs
    · simp only [playChars, hs] at h ⊢
      simp only [List.length_cons] at h
      have h2 := ih (play P c) (by omega)
      simpa using h2

/-! ### Concrete positions used as witnesses and counterexamples -/

/-- A 34-move sequence whose position is won for the side to move in 5 plies
(score 3): the weak solve's single null-window probe fails high with the
exact score 3, which the narrowing loop returns unchanged. -/
def seqC2 : List Char :=
  ['1','2','2','1','3','1','1','3','3','4','4','3','3','6','4','4','5','5',
   '6','5','5','2','6','2','2','6','7','6','6','7','7','7','7','7']

/-- The position after `seqC2`. -/
def PC2 : Position := (playChars emptyPos seqC2).1

/-- A 38-move position on which `negamax 43 _ (-1) 0` exits through the beta
cutoff of its exploration loop after the first explored child (the move in
column 3) has stored its own upper bound in the transposition table. -/
def seqC7 : List Char :=
  ['3','1','1','1','3','1','1','2','1','2','2','3','2','2','5','3','3','4',
   '5','4','4','5','4','4','7','5','5','6','7','6','6','7','6','7','7','6',
   '7','6']

/-- The position after `seqC7`. -/
def QC7 : Position := (playChars emptyPos seqC7).1

/-- A 6-move position in which the side to move wins immediately in
column 0. -/
def seqC6 : List Char := ['1','1','2','2','3','3']

/-- The position after `seqC6`. -/
def PC6 : Position := (playChars emptyPos seqC6).1

/-! ### The claims -/

/-- C1: for every legal, non-terminal position, `solve(P, weak=false)` from a
fresh solver returns the game-theoretic value of `P` for the side to move
(the value `gv` defined by the win/draw/best-child recursion, whose positive
scores encode how quickly a win is forced). -/
theorem claim_C1 (P : Position) (hw : wf P) (h1 : ¬wonB P.cur)
    (h2 : ¬wonB (oppB P)) : (solve P false initSt).1 = gv P :=
  solve_strong_exact hw TTvalid_reset

theorem claim_C1_witness :
    wf emptyPos ∧ (solve emptyPos false initSt).1 = gv emptyPos :=
  ⟨by decide, claim_C1 emptyPos (by decide) (by decide) (by decide)⟩

/-- C2 (amended): `solve(P, weak=true)` agrees with the sign of the game
value only on losses and draws; on a won position it returns some value
between 1 and the full score, not necessarily 1.  The original claim (the
weak result always equals the sign) is refuted by `claim_C2_cex`. -/
theorem claim_C2 (P : Position) (hw : wf P) (h1 : ¬wonB P.cur)
    (h2 : ¬wonB (oppB P)) :
    (gv P ≤ -1 → (solve P true initSt).1 = -1) ∧
    (gv P = 0 → (solve P true initSt).1 = 0) ∧
    (1 ≤ gv P → 1 ≤ (solve P true initSt).1 ∧
      (solve P true initSt).1 ≤ gv P) :=
  solve_weak_cases hw TTvalid_reset

theorem claim_C2_witness :
    wf emptyPos ∧
    ((gv emptyPos ≤ -1 → (solve emptyPos true initSt).1 = -1) ∧
    (gv emptyPos = 0 → (solve emptyPos true initSt).1 = 0) ∧
    (1 ≤ gv emptyPos → 1 ≤ (solve emptyPos true initSt).1 ∧
      (solve emptyPos true initSt).1 ≤ gv emptyPos)) :=
  ⟨by decide, claim_C2 emptyPos (by decide) (by decide) (by decide)⟩

/-- C2 counterexample: the legal, non-terminal position `PC2` has weak solve
3, while the sign of its strong solve is 1, so the weak solve is neither the
sign of the strong solve nor a value of `{-1, 0, +1}`. -/
theorem claim_C2_cex : wf PC2 ∧ ¬wonB PC2.cur ∧ ¬wonB (oppB PC2) ∧
    (solve PC2 true initSt).1 = 3 ∧ (solve PC2 false initSt).1 = 3 := by
  decide

/-- C3: `negamax` preserves validity of the transposition table: starting
from a table whose every entry is a correct upper bound (`TTvalid`, as the
reset table is), every entry after the search is still a correct upper bound
`gv Q ≤ v + MIN_SCORE - 1`, in particular the `alpha - MIN_SCORE + 1` stored
after exhausting the moves. -/
theorem claim_C3 (fuel : Nat) (P : Position) (a b : Int) (st : SolverSt)
    (hw : wf P) (hnw : ¬canWinNext P) (hab : a < b) (hTT : TTvalid st.tt)
    (hf : 42 - P.moves < fuel) : TTvalid (negamax fuel P a b st).2.tt :=
  (negamax_spec fuel P a b st hw hnw hab hTT hf).1

theorem claim_C3_witness :
    (0 : Int) < 1 ∧ TTvalid (negamax 43 emptyPos 0 1 initSt).2.tt :=
  ⟨by decide, claim_C3 43 emptyPos 0 1 initSt (by decide) (by decide)
    (by decide) TTvalid_reset (by decide)⟩

/-- C4: strong solve is deterministic in the transposition table: for any two
entry states whose tables are valid (as the reset table is, and as every
table produced by prior searches from it is, by C3), the two runs return the
same integer. -/
theorem claim_C4 (P : Position) (st1 st2 : SolverSt) (hw : wf P)
    (h1 : ¬wonB P.cur) (h2 : ¬wonB (oppB P)) (hv1 : TTvalid st1.tt)
    (hv2 : TTvalid st2.tt) :
    (solve P false st1).1 = (solve P false st2).1 := by
  rw [solve_strong_exact hw hv1, solve_strong_exact hw hv2]

theorem claim_C4_witness :
    wf emptyPos ∧
    (solve emptyPos false initSt).1 =
      (solve emptyPos false ⟨7, TT.reset⟩).1 :=
  ⟨by decide, claim_C4 emptyPos initSt ⟨7, TT.reset⟩ (by decide) (by decide)
    (by decide) TTvalid_reset TTvalid_reset⟩

/-- C5: under the preconditions of `negamax`, an empty non-losing-move list
makes it return `-(42 - moves)/2` (truncating division), and otherwise a
position with at least 40 stones makes it return 0. -/
theorem claim_C5 (fuel : Nat) (P : Position) (a b : Int) (st : SolverSt)
    (hab : a < b) (h1 : ¬wonB P.cur) (h2 : ¬wonB (oppB P))
    (hnw : ¬canWinNext P) :
    (possibleNonLosing P = [] →
      (negamax (fuel + 1) P a b st).1 =
        Int.tdiv (-(42 - (P.moves : Int))) 2) ∧
    (possibleNonLosing P ≠ [] → 42 - 2 ≤ P.moves →
      (negamax (fuel + 1) P a b st).1 = 0) := by
  constructor
  · intro h
    rw [negamax_nil h]
  · intro h1 h2
    rw [negamax_draw h1 h2]

theorem claim_C5_witness :
    (0 : Int) < 1 ∧
    ((possibleNonLosing emptyPos = [] →
      (negamax (42 + 1) emptyPos 0 1 initSt).1 =
        Int.tdiv (-(42 - (emptyPos.moves : Int))) 2) ∧
    (possibleNonLosing emptyPos ≠ [] → 42 - 2 ≤ emptyPos.moves →
      (negamax (42 + 1) emptyPos 0 1 initSt).1 = 0)) :=
  ⟨by decide, claim_C5 42 emptyPos 0 1 initSt (by decide) (by decide)
    (by decide) (by decide)⟩

/-- C6: a position with an immediate winning move is answered by `solve`
directly with the score `(42 + 1 - moves)/2`, for either weak flag, leaving
the solver state untouched (so the recursive search is never entered, which
would have counted at least one node). -/
theorem claim_C6 (P : Position) (weak : Bool) (st : SolverSt)
    (h : canWinNext P) :
    solve P weak st = (Int.tdiv (42 + 1 - (P.moves : Int)) 2, st) :=
  solve_canWin h weak st

theorem claim_C6_witness :
    canWinNext PC6 ∧
    solve PC6 true initSt = (Int.tdiv (42 + 1 - (PC6.moves : Int)) 2, initSt) :=
  ⟨by decide, claim_C6 PC6 true initSt (by decide)⟩

/-- C7 (amended): the transposition table is unchanged on the four early
returns that happen before the exploration loop (empty non-losing-move set,
draw cutoff, and the two window-closing returns after bound tightening); the
original claim that it is also unchanged when a beta cutoff happens during
child exploration is refuted by `claim_C7_cex`, since explored children
write their own entries before the cutoff. -/
theorem claim_C7 (fuel : Nat) (P : Position) (a b : Int) (st : SolverSt) :
    (possibleNonLosing P = [] → (negamax (fuel + 1) P a b st).2.tt = st.tt) ∧
    (possibleNonLosing P ≠ [] → 42 - 2 ≤ P.moves →
      (negamax (fuel + 1) P a b st).2.tt = st.tt) ∧
    (possibleNonLosing P ≠ [] → ¬(42 - 2 ≤ P.moves) →
      a < Int.tdiv (-(42 - 2 - (P.moves : Int))) 2 →
      b ≤ Int.tdiv (-(42 - 2 - (P.moves : Int))) 2 →
      (negamax (fuel + 1) P a b st).2.tt = st.tt) ∧
    (possibleNonLosing P ≠ [] → ¬(42 - 2 ≤ P.moves) →
      ¬(a < Int.tdiv (-(42 - 2 - (P.moves : Int))) 2 ∧
        b ≤ Int.tdiv (-(42 - 2 - (P.moves : Int))) 2) →
      (if st.tt.get (key P) ≠ 0
        then ((st.tt.get (key P) : Int)) + MIN_SCORE - 1
        else Int.tdiv (42 - 1 - (P.moves : Int)) 2) < b →
      (if st.tt.get (key P) ≠ 0
        then ((st.tt.get (key P) : Int)) + MIN_SCORE - 1
        else Int.tdiv (42 - 1 - (P.moves : Int)) 2) ≤
        (if a < Int.tdiv (-(42 - 2 - (P.moves : Int))) 2
          then Int.tdiv (-(42 - 2 - (P.moves : Int))) 2 else a) →
      (negamax (fuel + 1) P a b st).2.tt = st.tt) := by
  refine ⟨fun h => ?_, fun h1 h2 => ?_, fun h1 h2 h3 h4 => ?_,
    fun h1 h2 h3 h4 h5 => ?_⟩
  · rw [negamax_nil h]
  · rw [negamax_draw h1 h2]
  · rw [negamax_mn h1 h2 ⟨h3, h4⟩]
  · rw [negamax_mx h1 h2 h3 ⟨h4, h5⟩]

/-- C7 counterexample: on the well-formed position `QC7` (38 stones, no
immediate win, non-losing moves available, so none of the pre-loop early
returns applies and none of them could have touched the table), the search
`negamax 43 QC7 (-1) 0` returns 0, which meets its beta bound 0 — a beta
cutoff, confirmed by the table holding nothing under `key QC7` (the
exhausted-moves path would have ended by storing there) — yet the table is
not unchanged: it holds the value 22 under the key of the first explored
child `play QC7 (3, 5)`. -/
theorem claim_C7_cex : (negamax 43 QC7 (-1) 0 initSt).1 = 0 ∧
    (negamax 43 QC7 (-1) 0 initSt).2.tt.get (key QC7) = 0 ∧
    (negamax 43 QC7 (-1) 0 initSt).2.tt.get (key (play QC7 (3, 5))) = 22 ∧
    wf QC7 ∧ ¬canWinNext QC7 ∧ possibleNonLosing QC7 ≠ [] ∧
    ¬(42 - 2 ≤ QC7.moves) := by
  decide

/-- C8: the narrowing loop of `solve` terminates: the fuel 64 exceeds every
possible window width, the loop's probe point `medOf mn mx` always lies in
`[mn, mx)`, each update strictly shrinks the window, and `solve` returns
exactly what the loop converged to. -/
theorem claim_C8 (P : Position) (weak : Bool) (st : SolverSt) (hw : wf P)
    (hnw : ¬canWinNext P) (hTT : TTvalid st.tt) :
    (∃ r st2, solveLoop (fun med s => negamax 43 P med (med + 1) s) 64
        (if weak then -1 else Int.tdiv (-(42 - (P.moves : Int))) 2)
        (if weak then 1 else Int.tdiv (42 + 1 - (P.moves : Int)) 2) st =
        some (r, st2) ∧ solve P weak st = (r, st2)) ∧
    (∀ mn mx : Int, mn < mx → mn ≤ medOf mn mx ∧ medOf mn mx < mx ∧
      ∀ r : Int, (if r ≤ medOf mn mx then r - mn else mx - r) < mx - mn) := by
  constructor
  · cases weak with
    | false =>
      have hm42 : P.moves ≤ 42 := wf_moves_le hw
      have hmc : (P.moves : Int) ≤ 42 := by exact_mod_cast hm42
      have h1 := tdiv2_bounds (42 - (P.moves : Int)) (by omega)
      have h2 := tdiv2_bounds (42 + 1 - (P.moves : Int)) (by omega)
      have h3 := neg_tdiv2 (42 - (P.moves : Int))
      obtain ⟨r, st2, heq⟩ :=
        solveLoop_total (fun med s => negamax 43 P med (med + 1) s) 64
          (Int.tdiv (-(42 - (P.moves : Int))) 2)
          (Int.tdiv (42 + 1 - (P.moves : Int)) 2) st (by omega)
      exact ⟨r, st2, heq, solve_false_probe hnw heq⟩
    | true =>
      obtain ⟨r, st2, heq⟩ :=
        solveLoop_total (fun med s => negamax 43 P med (med + 1) s) 64
          (-1) 1 st (by decide)
      exact ⟨r, st2, heq, solve_true_probe hnw heq⟩
  · intro mn mx h
    obtain ⟨h1, h2⟩ := medOf_bounds h
    refine ⟨h1, h2, fun r => ?_⟩
    by_cases hr : r ≤ medOf mn mx
    · rw [if_pos hr]
      omega
    · rw [if_neg hr]
      omega

theorem claim_C8_witness :
    wf emptyPos ∧
    ((∃ r st2, solveLoop (fun med s => negamax 43 emptyPos med (med + 1) s) 64
        (Int.tdiv (-(42 - (emptyPos.moves : Int))) 2)
        (Int.tdiv (42 + 1 - (emptyPos.moves : Int)) 2) initSt =
        some (r, st2) ∧ solve emptyPos false initSt = (r, st2)) ∧
    (∀ mn mx : Int, mn < mx → mn ≤ medOf mn mx ∧ medOf mn mx < mx ∧
      ∀ r : Int, (if r ≤ medOf mn mx then r - mn else mx - r) < mx - mn)) :=
  ⟨by decide, claim_C8 emptyPos false initSt (by decide) (by decide)
    TTvalid_reset⟩

/-- C9: for every input line whose move sequence is invalid, the driver
iteration produces an empty stdout line and exactly one stderr diagnostic in
which the reported move index is the number of successfully applied moves
plus one; the applied count indeed stops strictly inside the line, at its
first invalid character. -/
theorem claim_C9 (l : Nat) (line : List Char) (weak : Bool) (elapsed : Nat)
    (h : (playChars emptyPos line).2 ≠ line.length) :
    (processLine l line weak elapsed).1 = "" ∧
    (processLine l line weak elapsed).2 = some ("Line " ++ toString l ++
      ": Invalid move " ++ toString ((playChars emptyPos line).2 + 1) ++
      " \"" ++ String.mk line ++ "\"") ∧
    (playChars emptyPos line).2 < line.length ∧
    stepOK (playChars emptyPos line).1
      (line.getD (playChars emptyPos line).2 '0') = none := by
  have hlt : (playChars emptyPos line).2 < line.length :=
    lt_of_le_of_ne (playChars_le line emptyPos) h
  have hmv : (playChars emptyPos line).1.moves =
      (playChars emptyPos line).2 := by
    have := playChars_moves line emptyPos
    have h0 : emptyPos.moves = 0 := rfl
    omega
  refine ⟨?_, ?_, hlt, playChars_stop line emptyPos hlt⟩
  · simp only [processLine]
    rw [if_pos h]
  · simp only [processLine]
    rw [if_pos h, hmv]

theorem claim_C9_witness :
    (playChars emptyPos ['8']).2 ≠ (['8'] : List Char).length ∧
    ((processLine 1 ['8'] false 0).1 = "" ∧
    (processLine 1 ['8'] false 0).2 = some ("Line " ++ toString 1 ++
      ": Invalid move " ++ toString ((playChars emptyPos ['8']).2 + 1) ++
      " \"" ++ String.mk ['8'] ++ "\"") ∧
    (playChars emptyPos ['8']).2 < (['8'] : List Char).length ∧
    stepOK (playChars emptyPos ['8']).1
      ((['8'] : List Char).getD (playChars emptyPos ['8']).2 '0') = none) :=
  ⟨by decide, claim_C9 1 ['8'] false 0 (by decide)⟩

/-- C10: `negamax` is fail-soft: with the true score `s = gv P`, a score at
most alpha yields a return value between the score and alpha, a score at
least beta yields one between beta and the score, and a score inside the
window is returned exactly. -/
theorem claim_C10 (fuel : Nat) (P : Position) (a b : Int) (st : SolverSt)
    (hw : wf P) (h1 : ¬wonB P.cur) (h2 : ¬wonB (oppB P))
    (hnw : ¬canWinNext P) (hab : a < b) (hTT : TTvalid st.tt)
    (hf : 42 - P.moves < fuel) :
    (gv P ≤ a → gv P ≤ (negamax fuel P a b st).1 ∧
      (negamax fuel P a b st).1 ≤ a) ∧
    (b ≤ gv P → b ≤ (negamax fuel P a b st).1 ∧
      (negamax fuel P a b st).1 ≤ gv P) ∧
    (a ≤ gv P → gv P ≤ b → (negamax fuel P a b st).1 = gv P) := by
  obtain ⟨hT, hc1, hc2, hc3⟩ := negamax_spec fuel P a b st hw hnw hab hTT hf
  refine ⟨fun h => ?_, fun h => ?_, fun h h2 => ?_⟩
  · rcases le_or_lt (negamax fuel P a b st).1 a with hra | hra
    · exact ⟨hc1 hra, hra⟩
    · rcases le_or_lt b (negamax fuel P a b st).1 with hrb | hrb
      · have := hc2 hrb
        omega
      · have := hc3 hra hrb
        omega
  · rcases le_or_lt b (negamax fuel P a b st).1 with hrb | hrb
    · exact ⟨hrb, hc2 hrb⟩
    · rcases le_or_lt (negamax fuel P a b st).1 a with hra | hra
      · have := hc1 hra
        omega
      · have := hc3 hra hrb
        omega
  · rcases le_or_lt (negamax fuel P a b st).1 a with hra | hra
    · have := hc1 hra
      omega
    · rcases le_or_lt b (negamax fuel P a b st).1 with hrb | hrb
      · have := hc2 hrb
        omega
      · exact hc3 hra hrb

theorem claim_C10_witness :
    wf emptyPos ∧
    ((gv emptyPos ≤ 0 → gv emptyPos ≤ (negamax 43 emptyPos 0 1 initSt).1 ∧
      (negamax 43 emptyPos 0 1 initSt).1 ≤ 0) ∧
    (1 ≤ gv emptyPos → 1 ≤ (negamax 43 emptyPos 0 1 initSt).1 ∧
      (negamax 43 emptyPos 0 1 initSt).1 ≤ gv emptyPos) ∧
    (0 ≤ gv emptyPos → gv emptyPos ≤ 1 →
      (negamax 43 emptyPos 0 1 initSt).1 = gv emptyPos)) :=
  ⟨by decide, claim_C10 43 emptyPos 0 1 initSt (by decide) (by decide)
    (by decide) (by decide) (by decide) TTvalid_reset (by decide)⟩

end C4
